import Mathlib

/-!
Verification development for `libchess/position.py` (python-chess).

The Python class `Position` is embedded shallowly: the 128-cell 0x88 board
becomes a function `Nat → Option Piece`, Python strings become `List Char`,
Python `assert`/exceptions become `Option`, and generators become `List`.
The external value types `Square`, `Piece` and `Move` are not part of
`src/` (the spec declares them out-of-scope collaborators), so they are
modelled from the spec (see the doc comments below).
-/

namespace LibChess

/-- Modelled from the spec: a color is `"w"` or `"b"`. -/
inductive Color where
  | w : Color
  | b : Color
deriving DecidableEq, Repr

/-- Modelled from the spec: piece types `p/n/b/r/q/k`. -/
inductive PieceType where
  | p : PieceType
  | n : PieceType
  | b : PieceType
  | r : PieceType
  | q : PieceType
  | k : PieceType
deriving DecidableEq, Repr

/-- Modelled from the spec: a Piece is an immutable (color, type) pair. -/
structure Piece where
  color : Color
  ptype : PieceType
deriving DecidableEq, Repr

/-- Modelled from the spec: one-character symbol encoding, upper = white,
lower = black. -/
def Piece.symbol : Piece → Char
  | ⟨.w, .p⟩ => 'P'
  | ⟨.w, .n⟩ => 'N'
  | ⟨.w, .b⟩ => 'B'
  | ⟨.w, .r⟩ => 'R'
  | ⟨.w, .q⟩ => 'Q'
  | ⟨.w, .k⟩ => 'K'
  | ⟨.b, .p⟩ => 'p'
  | ⟨.b, .n⟩ => 'n'
  | ⟨.b, .b⟩ => 'b'
  | ⟨.b, .r⟩ => 'r'
  | ⟨.b, .q⟩ => 'q'
  | ⟨.b, .k⟩ => 'k'

/-- Modelled from the spec: inverse of the symbol encoding. -/
def Piece.from_symbol (c : Char) : Option Piece :=
  match c with
  | 'P' => some ⟨.w, .p⟩
  | 'N' => some ⟨.w, .n⟩
  | 'B' => some ⟨.w, .b⟩
  | 'R' => some ⟨.w, .r⟩
  | 'Q' => some ⟨.w, .q⟩
  | 'K' => some ⟨.w, .k⟩
  | 'p' => some ⟨.b, .p⟩
  | 'n' => some ⟨.b, .n⟩
  | 'b' => some ⟨.b, .b⟩
  | 'r' => some ⟨.b, .r⟩
  | 'q' => some ⟨.b, .q⟩
  | 'k' => some ⟨.b, .k⟩
  | _ => none

/-- `libchess.opposite_color`. -/
def opposite_color : Color → Color
  | .w => .b
  | .b => .w

/-- Modelled from the spec: an immutable coordinate value.  `x` is the file
(0 = file a) and `y` is the rank minus one (0 = rank 1). -/
structure Square where
  x : Fin 8
  y : Fin 8
deriving DecidableEq, Repr

/-- Modelled from the spec: the 0x88 index.  The FEN codec walks ranks 8
down to 1 writing indices 0, 1, 2, …, so index 0 is a8 and index 119 is h1:
`index = x + 16 * (7 - y)`. -/
def Square.get_0x88_index (s : Square) : Nat :=
  s.x.val + 16 * (7 - s.y.val)

/-- Modelled from the spec: the rank, 1 to 8. -/
def Square.get_rank (s : Square) : Nat := s.y.val + 1

/-- Modelled from the spec: the file letter, `'a'` to `'h'`. -/
def Square.get_file (s : Square) : Char := Char.ofNat (97 + s.x.val)

/-- Modelled from the spec: light-or-dark-square query (a1 is dark). -/
def Square.is_light (s : Square) : Bool := (s.x.val + s.y.val) % 2 = 1

/-- Modelled from the spec: whether the square is on rank 1 or rank 8
(the promotion ranks). -/
def Square.is_backrank (s : Square) : Bool := s.y.val = 0 ∨ s.y.val = 7

/-- Modelled from the spec: enumeration of all 64 squares (rank 8 first,
file a to h inside a rank, matching the FEN walking order). -/
def Square.get_all : List Square :=
  (List.finRange 8).reverse.flatMap fun y => (List.finRange 8).map fun x => ⟨x, y⟩

/-- Modelled from the spec: `Square.from_0x88_index`, defined exactly on the
64 valid 0x88 indices (an index is valid iff it is in `[0, 128)` and its
`0x88` bits are clear, i.e. both nibbles are below 8; the constructor is
partial in the Python library, and an invalid index is modelled as
`none`). -/
def Square.from_0x88i (i : Int) : Option Square :=
  if h : 0 ≤ i ∧ i.toNat % 16 < 8 ∧ i.toNat / 16 < 8 then
    some ⟨⟨i.toNat % 16, h.2.1⟩, ⟨7 - i.toNat / 16, by omega⟩⟩
  else none

/-- Modelled from the spec: a Move is an immutable
(source square, target square, optional promotion type) triple with
structural equality. -/
structure Move where
  source : Square
  target : Square
  promotion : Option PieceType
deriving DecidableEq, Repr

def Move.get_source (m : Move) : Square := m.source
def Move.get_target (m : Move) : Square := m.target
def Move.get_promotion (m : Move) : Option PieceType := m.promotion

/-- The 0x88 board of `Position.__init__`: a 128-cell array of optional
pieces, embedded as a function from cell index to content. -/
def Board : Type := Nat → Option Piece

/-- A Python string, embedded as a list of characters. -/
abbrev PyStr := List Char

/-- The state of `libchess.Position`: `_board`, `_turn`, `_castling`,
`_ep_file`, `_half_moves`, `_move_number`. -/
structure Position where
  board : Board
  turn : Color
  castling : List Char
  ep_file : Option Char
  half_moves : Nat
  move_number : Nat

/-- `Position.__init__`: empty board, white to move, no castling rights,
no en-passant file, clocks 0 and 1. -/
def emptyPosition : Position :=
  { board := fun _ => none
    turn := .w
    castling := []
    ep_file := none
    half_moves := 0
    move_number := 1 }

/-- Writing one cell of the 128-cell array. -/
def writeCell (b : Board) (j : Nat) (v : Option Piece) : Board :=
  fun i => if i = j then v else b i

/-- A raw Python list read `board[i]` with a possibly negative index:
Python wraps indices in `[-128, -1]` around to `[0, 127]` and raises
`IndexError` (modelled as `none`) outside `[-128, 127]`. -/
def pyRead (b : Board) (i : Int) : Option (Option Piece) :=
  if 128 ≤ i ∨ i < -128 then none
  else some (b (i % 128).toNat)

/-- A raw Python list write `board[i] = v`, with the same index semantics
as `pyRead`. -/
def pyWrite (b : Board) (i : Int) (v : Option Piece) : Option Board :=
  if 128 ≤ i ∨ i < -128 then none
  else some (writeCell b (i % 128).toNat v)

/-- `Position.get`. -/
def Position.get (p : Position) (sq : Square) : Option Piece :=
  p.board sq.get_0x88_index

/-- `Position.get_turn`. -/
def Position.get_turn (p : Position) : Color := p.turn

/-- `Position.set_turn` (the assert on the argument is enforced by the
`Color` type). -/
def Position.set_turn (p : Position) (t : Color) : Position :=
  { p with turn := t }

/-- `Position.toggle_turn`. -/
def Position.toggle_turn (p : Position) : Position :=
  p.set_turn (opposite_color p.turn)

/-- `Position.get_castling_right` for a type in `K`, `Q`, `k`, `q`. -/
def Position.get_castling_right (p : Position) (t : Char) : Bool :=
  decide (t ∈ p.castling)

/-- `Position.get_theoretical_castling_right`: the king is on its home
square and the matching rook on its home corner.  e1 is index 116, h1 is
119, a1 is 112, e8 is 4, h8 is 7, a8 is 0. -/
def Position.get_theoretical_castling_right (p : Position) (t : Char) : Bool :=
  match t with
  | 'K' => p.board 116 = some ⟨.w, .k⟩ ∧ p.board 119 = some ⟨.w, .r⟩
  | 'Q' => p.board 116 = some ⟨.w, .k⟩ ∧ p.board 112 = some ⟨.w, .r⟩
  | 'k' => p.board 4 = some ⟨.b, .k⟩ ∧ p.board 7 = some ⟨.b, .r⟩
  | 'q' => p.board 4 = some ⟨.b, .k⟩ ∧ p.board 0 = some ⟨.b, .r⟩
  | _ => false

/-- The body of `Position.set_castling_right`: rebuild `_castling` by
walking `K`, `Q`, `k`, `q` in order, keeping a letter if it is the given
type with status true, or any other currently held right. -/
def Position.set_castling_right_core (p : Position) (t : Char) (status : Bool) : List Char :=
  ['K', 'Q', 'k', 'q'].filter fun u =>
    if u = t then status else p.get_castling_right u

/-- `Position.set_castling_right`, with the two asserts (valid type;
a right may only be granted when it is theoretically possible) modelled
as `none`. -/
def Position.set_castling_right (p : Position) (t : Char) (status : Bool) : Option Position :=
  if t ∈ ['K', 'Q', 'k', 'q'] then
    if status ∧ ¬ p.get_theoretical_castling_right t then none
    else some { p with castling := p.set_castling_right_core t status }
  else none

/-- One iteration of the castling-right re-derivation loop: if the right
is not theoretically possible, clear it (via the `set_castling_right`
rebuild, which with status false never fails). -/
def updateCastlingStep (q : Position) (t : Char) : Position :=
  if q.get_theoretical_castling_right t then q
  else { q with castling := q.set_castling_right_core t false }

/-- The castling-right re-derivation loop shared by `Position.set` and
`Position.set_fen`. -/
def Position.updateCastling (p : Position) : Position :=
  ['K', 'Q', 'k', 'q'].foldl updateCastlingStep p

/-- `Position.set`: write the cell, then re-derive all four castling
rights. -/
def Position.set (p : Position) (sq : Square) (pc : Option Piece) : Position :=
  Position.updateCastling { p with board := writeCell p.board sq.get_0x88_index pc }

/-- `Position.clear`: empty the board and the castling string, leaving
turn, en-passant file and the move clocks untouched. -/
def Position.clear (p : Position) : Position :=
  { p with board := fun _ => none, castling := [] }

/-- `Position.get_ep_file`. -/
def Position.get_ep_file (p : Position) : Option Char := p.ep_file

/-- `Position.set_ep_file`, with the assert on valid file letters
modelled as `none`. -/
def Position.set_ep_file (p : Position) (f : Option Char) : Option Position :=
  match f with
  | none => some { p with ep_file := none }
  | some c =>
      if c ∈ ['a', 'b', 'c', 'd', 'e', 'f', 'g', 'h'] then
        some { p with ep_file := some c }
      else none

/-- `Position.get_half_moves`. -/
def Position.get_half_moves (p : Position) : Nat := p.half_moves

/-- `Position.set_half_moves` (non-negativity is enforced by `Nat`). -/
def Position.set_half_moves (p : Position) (n : Nat) : Position :=
  { p with half_moves := n }

/-- `Position.get_move_number`. -/
def Position.get_move_number (p : Position) : Nat := p.move_number

/-- `Position.set_move_number`, transcribed exactly as written: the body is
`return self._move_number` — it returns the current move number and never
assigns the argument, so the position is unchanged.  The pair is
(unchanged position, returned value). -/
def Position.set_move_number (p : Position) (_move_number : Nat) : Position × Nat :=
  (p, p.move_number)

/-- `Position.get_piece_counts`, filtered by a list of colors
(`"wb"` becomes `[w, b]`): the count of pieces of the given type over the
whole 128-cell array. -/
def Position.get_piece_counts (p : Position) (colors : List Color) (t : PieceType) : Nat :=
  (List.range 128).countP fun i =>
    match p.board i with
    | some pc => decide (pc.color ∈ colors) && decide (pc.ptype = t)
    | none => false

/-- `Position.get_king`: the first square (in enumeration order) holding
the king of the given color, or `none`. -/
def Position.get_king (p : Position) (c : Color) : Option Square :=
  Square.get_all.find? fun sq =>
    match p.get sq with
    | some pc => pc.color = c ∧ pc.ptype = .k
    | none => false

/-! ### The FEN codec -/

/-- Python `str` of a decimal digit value. -/
def digitChar (n : Nat) : Char := Char.ofNat (48 + n)

/-- The little-endian base-10 digits of `n`, with enough fuel to consume
all of them (structural recursion on the fuel keeps this kernel-reducible;
`natDigits n n` agrees with `Nat.digits 10 n`). -/
def natDigitsAux : Nat → Nat → List Nat
  | 0, _ => []
  | fuel + 1, n => if n = 0 then [] else n % 10 :: natDigitsAux fuel (n / 10)

/-- Python `str(n)` for a non-negative integer. -/
def pyStrNat (n : Nat) : PyStr :=
  if n = 0 then ['0'] else (natDigitsAux n n).reverse.map digitChar

/-- Python `int(s)` for a string of decimal digits (a non-digit raises,
modelled as `none`; this matches `int` on every string the codec
produces or accepts). -/
def pyIntNat (s : PyStr) : Option Nat :=
  if s ≠ [] ∧ s.all Char.isDigit then
    some (s.foldl (fun a c => 10 * a + (c.toNat - 48)) 0)
  else none

/-- `Color` to its FEN letter. -/
def Color.char : Color → Char
  | .w => 'w'
  | .b => 'b'

/-- The run-length encoding of one rank in `Position.get_fen`: `e` is the
`empty` counter accumulated so far inside the rank. -/
def encAux : List (Option Piece) → Nat → PyStr
  | [], e => if e > 0 then [digitChar e] else []
  | none :: rest, e => encAux rest (e + 1)
  | some pc :: rest, e =>
      (if e > 0 then [digitChar e] else []) ++ pc.symbol :: encAux rest 0

/-- The eight cells of rank `y + 1` in file order a to h (the inner `x`
loop of `get_fen`). -/
def rankCells (b : Board) (y : Nat) : List (Option Piece) :=
  (List.range 8).map fun x => b (x + 16 * (7 - y))

/-- The board-setup field of `get_fen`: ranks 8 down to 1, run-length
encoded, separated by `/`. -/
def fenPlacement (b : Board) : PyStr :=
  List.intercalate ['/'] ([7, 6, 5, 4, 3, 2, 1, 0].map fun y => encAux (rankCells b y) 0)

/-- `Position.get_fen`: the six space-separated FEN fields. -/
def Position.get_fen (p : Position) : PyStr :=
  List.intercalate [' ']
    [ fenPlacement p.board
    , [p.turn.char]
    , if p.castling = [] then ['-'] else p.castling
    , match p.ep_file with
      | none => ['-']
      | some f => [f, if p.turn = .w then '6' else '3']
    , pyStrNat p.half_moves
    , pyStrNat p.move_number ]

/-- Python `str.split()` with no argument: split on runs of whitespace,
dropping empty tokens (the only whitespace in a FEN is the space). -/
def pySplit : PyStr → List PyStr
  | [] => []
  | c :: rest =>
      if c = ' ' then pySplit rest
      else
        match pySplit rest with
        | [] => [[c]]
        | t :: ts => if rest.head? = some ' ' ∨ rest = [] then [c] :: t :: ts else (c :: t) :: ts

/-- Python `str.split(sep)` with a one-character separator: splits on every
occurrence, keeping empty pieces. -/
def splitChar (sep : Char) : PyStr → List PyStr
  | [] => [[]]
  | c :: rest =>
      if c = sep then [] :: splitChar sep rest
      else
        match splitChar sep rest with
        | [] => [[c]]
        | t :: ts => (c :: t) :: ts

/-- The row-validation loop of `set_fen`: scan one rank's characters
tracking the field sum and whether the previous character was a digit;
any assert failure is `none`. -/
def rowScan : PyStr → Nat → Bool → Option (Nat × Bool)
  | [], s, prev => some (s, prev)
  | c :: rest, s, prev =>
      if c ∈ ['1', '2', '3', '4', '5', '6', '7', '8'] then
        if prev then none else rowScan rest (s + (c.toNat - 48)) true
      else if c ∈ ['p', 'n', 'b', 'r', 'k', 'q', 'P', 'N', 'B', 'R', 'K', 'Q'] then
        rowScan rest (s + 1) false
      else none

/-- One rank of the placement field is valid: characters in
`12345678pnbrkqPNBRKQ`, no two consecutive digits, field sum exactly 8. -/
def rowOk (row : PyStr) : Bool :=
  match rowScan row 0 false with
  | some (s, _) => s = 8
  | none => false

/-- The regular expression `^(KQ?k?q?|Qk?q?|kq?|q|-)$` of `set_fen`:
its language is exactly these sixteen strings. -/
def matchCastlingFlag (s : PyStr) : Bool :=
  s ∈ [ ['-'], ['K'], ['K', 'Q'], ['K', 'k'], ['K', 'q'], ['K', 'Q', 'k'], ['K', 'Q', 'q']
      , ['K', 'k', 'q'], ['K', 'Q', 'k', 'q'], ['Q'], ['Q', 'k'], ['Q', 'q'], ['Q', 'k', 'q']
      , ['k'], ['k', 'q'], ['q'] ]

/-- The regular expression `^(-|[a-h][36])$` of `set_fen`. -/
def matchEpFlag (s : PyStr) : Bool :=
  match s with
  | ['-'] => true
  | [f, r] => f ∈ ['a', 'b', 'c', 'd', 'e', 'f', 'g', 'h'] ∧ (r = '3' ∨ r = '6')
  | _ => false

/-- The board-population loop of `set_fen`: `/` advances the index by 8
(completing the 16-wide row), a digit skips that many cells, a piece
symbol is written and the index advances by one. -/
def replayFen : PyStr → Nat → Board → Board
  | [], _, b => b
  | c :: rest, i, b =>
      if c = '/' then replayFen rest (i + 8) b
      else if c ∈ ['1', '2', '3', '4', '5', '6', '7', '8'] then
        replayFen rest (i + (c.toNat - 48)) b
      else
        match Piece.from_symbol c with
        | some pc => replayFen rest (i + 1) (writeCell b i (some pc))
        | none => replayFen rest (i + 1) b

/-- The turn field parser of `set_fen` (`assert` modelled as `none`). -/
def parseTurn : PyStr → Option Color
  | ['w'] => some Color.w
  | ['b'] => some Color.b
  | _ => none

/-- The parsing-and-population part of `Position.set_fen`, applied to the
whitespace-split token list: validate the six fields and build the
position, before the final castling-right re-derivation.  Every `assert`
is modelled as `none`. -/
def set_fenTokens : List PyStr → Option Position
  | [t0, t1, t2, t3, t4, t5] =>
      if (splitChar '/' t0).length = 8 ∧ (splitChar '/' t0).all rowOk then
        (parseTurn t1).bind fun turn =>
        if matchCastlingFlag t2 ∧ matchEpFlag t3 then
          (pyIntNat t4).bind fun half =>
          (pyIntNat t5).bind fun mn =>
          if 1 ≤ mn then
            some
              { board := replayFen t0 0 (fun _ => none)
                turn := turn
                castling := if t2 = ['-'] then [] else t2
                ep_file := if t3 = ['-'] then none else t3.head?
                half_moves := half
                move_number := mn }
          else none
        else none
      else none
  | _ => none

/-- `set_fen` before its final castling re-derivation: split the FEN on
whitespace and parse the tokens. -/
def set_fenRaw (fen : PyStr) : Option Position := set_fenTokens (pySplit fen)

/-- `Position.set_fen`: parse, populate, then re-derive the castling
rights exactly as `set` does.  The result does not depend on the
previous state because `set_fen` overwrites every field. -/
def set_fen (fen : PyStr) : Option Position :=
  (set_fenRaw fen).map Position.updateCastling

/-- The FEN of the standard starting position, used by `Position.reset`. -/
def startFen : PyStr :=
  "rnbqkbnr/pppppppp/8/8/8/8/PPPPPPPP/RNBQKBNR w KQkq - 0 1".toList

/-- `Position.reset` (like `set_fen`, independent of the prior state). -/
def reset : Option Position := set_fen startFen

/-- The standard starting position produced by `reset`. -/
def startPos : Position := reset.getD emptyPosition

/-- `Position.copy` / `Position.from_fen(self.get_fen())`: a deep clone via
a FEN round trip. -/
def Position.copy (p : Position) : Option Position := set_fen p.get_fen

/-! ### The attack detector -/

/-- The `ATTACKS` table of `get_attackers`, transcribed verbatim. -/
def ATTACKS : List Nat :=
  [ 20, 0, 0, 0, 0, 0, 0, 24, 0, 0, 0, 0, 0, 0, 20, 0,
    0, 20, 0, 0, 0, 0, 0, 24, 0, 0, 0, 0, 0, 20, 0, 0,
    0, 0, 20, 0, 0, 0, 0, 24, 0, 0, 0, 0, 20, 0, 0, 0,
    0, 0, 0, 20, 0, 0, 0, 24, 0, 0, 0, 20, 0, 0, 0, 0,
    0, 0, 0, 0, 20, 0, 0, 24, 0, 0, 20, 0, 0, 0, 0, 0,
    0, 0, 0, 0, 0, 20, 2, 24, 2, 20, 0, 0, 0, 0, 0, 0,
    0, 0, 0, 0, 0, 2, 53, 56, 53, 2, 0, 0, 0, 0, 0, 0,
    24, 24, 24, 24, 24, 24, 56, 0, 56, 24, 24, 24, 24, 24, 24, 0,
    0, 0, 0, 0, 0, 2, 53, 56, 53, 2, 0, 0, 0, 0, 0, 0,
    0, 0, 0, 0, 0, 20, 2, 24, 2, 20, 0, 0, 0, 0, 0, 0,
    0, 0, 0, 0, 20, 0, 0, 24, 0, 0, 20, 0, 0, 0, 0, 0,
    0, 0, 0, 20, 0, 0, 0, 24, 0, 0, 0, 20, 0, 0, 0, 0,
    0, 0, 20, 0, 0, 0, 0, 24, 0, 0, 0, 0, 20, 0, 0, 0,
    0, 20, 0, 0, 0, 0, 0, 24, 0, 0, 0, 0, 0, 20, 0, 0,
    20, 0, 0, 0, 0, 0, 0, 24, 0, 0, 0, 0, 0, 0, 20 ]

/-- The `RAYS` table of `get_attackers`, transcribed verbatim. -/
def RAYS : List Int :=
  [ 17, 0, 0, 0, 0, 0, 0, 16, 0, 0, 0, 0, 0, 0, 15, 0,
    0, 17, 0, 0, 0, 0, 0, 16, 0, 0, 0, 0, 0, 15, 0, 0,
    0, 0, 17, 0, 0, 0, 0, 16, 0, 0, 0, 0, 15, 0, 0, 0,
    0, 0, 0, 17, 0, 0, 0, 16, 0, 0, 0, 15, 0, 0, 0, 0,
    0, 0, 0, 0, 17, 0, 0, 16, 0, 0, 15, 0, 0, 0, 0, 0,
    0, 0, 0, 0, 0, 17, 0, 16, 0, 15, 0, 0, 0, 0, 0, 0,
    0, 0, 0, 0, 0, 0, 17, 16, 15, 0, 0, 0, 0, 0, 0, 0,
    1, 1, 1, 1, 1, 1, 1, 0, -1, -1, -1, -1, -1, -1, -1, 0,
    0, 0, 0, 0, 0, 0, -15, -16, -17, 0, 0, 0, 0, 0, 0, 0,
    0, 0, 0, 0, 0, -15, 0, -16, 0, -17, 0, 0, 0, 0, 0, 0,
    0, 0, 0, 0, -15, 0, 0, -16, 0, 0, -17, 0, 0, 0, 0, 0,
    0, 0, 0, -15, 0, 0, 0, -16, 0, 0, 0, -17, 0, 0, 0, 0,
    0, 0, -15, 0, 0, 0, 0, -16, 0, 0, 0, 0, -17, 0, 0, 0,
    0, -15, 0, 0, 0, 0, 0, -16, 0, 0, 0, 0, 0, -17, 0, 0,
    -15, 0, 0, 0, 0, 0, 0, -16, 0, 0, 0, 0, 0, 0, -17 ]

/-- The `SHIFTS` table of `get_attackers`. -/
def SHIFTS : PieceType → Nat
  | .p => 0
  | .n => 1
  | .b => 2
  | .r => 3
  | .q => 4
  | .k => 5

/-- The blocker walk of `get_attackers`: starting at `j` (the attacker's
index plus the ray offset) step by `offset` until the target index is
reached; blocked iff an occupied cell is met first.  A ray has at most 7
steps, so fuel 8 always suffices; exhausted fuel or a failed read (both
unreachable for table-compatible displacements) count as blocked. -/
def rayBlocked (b : Board) (targetIdx : Nat) (offset : Int) : Nat → Int → Bool
  | 0, _ => true
  | fuel + 1, j =>
      if j = (targetIdx : Int) then false
      else
        match pyRead b j with
        | some none => rayBlocked b targetIdx offset fuel (j + offset)
        | some (some _) => true
        | none => true

/-- `Position.get_attackers`: source squares of pieces of `c` attacking
`sq`.  A king attacker is yielded twice by the source (once by the
knight-and-king branch, once by the unblocked length-one ray walk);
the duplication is preserved. -/
def Position.get_attackers (p : Position) (c : Color) (sq : Square) : List Square :=
  Square.get_all.flatMap fun source =>
    match p.get source with
    | none => []
    | some piece =>
        if piece.color ≠ c then []
        else
          let difference : Int := (source.get_0x88_index : Int) - sq.get_0x88_index
          let index := (difference + 119).toNat
          if ATTACKS.getD index 0 &&& (1 <<< SHIFTS piece.ptype) ≠ 0 then
            if piece.ptype = .p then
              if difference > 0 then
                (if piece.color = .w then [source] else [])
              else
                (if piece.color = .b then [source] else [])
            else
              (if piece.ptype = .n ∨ piece.ptype = .k then [source] else [])
              ++ (let offset := RAYS.getD index 0
                  if rayBlocked p.board sq.get_0x88_index offset 8
                       ((source.get_0x88_index : Int) + offset) then []
                  else [source])
          else []

/-- `Position.is_attacked`: the attacker sequence is non-empty. -/
def Position.is_attacked (p : Position) (c : Color) (sq : Square) : Bool :=
  ¬ (p.get_attackers c sq).isEmpty

/-- `Position.is_king_attacked`: `false` when that player has no king. -/
def Position.is_king_attacked (p : Position) (c : Color) : Bool :=
  match p.get_king c with
  | some sq => p.is_attacked (opposite_color c) sq
  | none => false

/-- `Position.is_check`. -/
def Position.is_check (p : Position) : Bool :=
  p.is_king_attacked p.get_turn

/-! ### The pseudo-legal move generator -/

/-- The `PAWN_OFFSETS` table, transcribed verbatim (note the third black
entry is `16`, as in the source). -/
def PAWN_OFFSETS : Color → List Int
  | .b => [16, 32, 16, 15]
  | .w => [-16, -32, -17, -15]

/-- The `PIECE_OFFSETS` table, transcribed verbatim. -/
def PIECE_OFFSETS : PieceType → List Int
  | .n => [-18, -33, -31, -14, 18, 33, 31, 14]
  | .b => [-17, -15, 17, 15]
  | .r => [-16, 1, 16, -1]
  | .q => [-17, -16, -15, 1, 17, 16, 15, -1]
  | .k => [-17, -16, -15, 1, 17, 16, 15, -1]
  | .p => []

/-- The four promotion moves `for promote_to in "bnrq"`. -/
def promotionMoves (sq target : Square) : List Move :=
  [PieceType.b, PieceType.n, PieceType.r, PieceType.q].map fun pt =>
    { source := sq, target := target, promotion := some pt }

/-- The pawn block of `get_pseudo_legal_moves` for one pawn of the side to
move.  The double-push condition transcribes the source line exactly,
including its precedence:
`(turn == "w" and rank == 2) or (turn == "b" and rank == 7 and not get(target))` —
the emptiness of the destination is only part of the black conjunct. -/
def pawnMoves (p : Position) (sq : Square) : List Move :=
  let offs := PAWN_OFFSETS p.turn
  let forward :=
    match Square.from_0x88i ((sq.get_0x88_index : Int) + offs.getD 0 0) with
    | none => []
    | some target =>
        if p.get target = none then
          (if target.is_backrank then promotionMoves sq target else [])
          ++
          (match Square.from_0x88i ((sq.get_0x88_index : Int) + offs.getD 1 0) with
           | none => []
           | some t2 =>
               if (p.turn = .w ∧ sq.get_rank = 2) ∨
                  (p.turn = .b ∧ sq.get_rank = 7 ∧ p.get t2 = none) then
                 [{ source := sq, target := t2, promotion := none }]
               else [])
        else []
  let captures := [2, 3].flatMap fun j =>
    let ti : Int := (sq.get_0x88_index : Int) + offs.getD j 0
    if ti < 0 ∨ ti.toNat &&& 0x88 ≠ 0 then []
    else
      match Square.from_0x88i ti with
      | none => []
      | some target =>
          match p.get target with
          | some q =>
              if q.color ≠ p.turn then
                if target.is_backrank then promotionMoves sq target
                else [{ source := sq, target := target, promotion := none }]
              else []
          | none =>
              if some target.get_file = p.ep_file then
                [{ source := sq, target := target, promotion := none }]
              else []
  forward ++ captures

/-- The sliding walk of `get_pseudo_legal_moves` along one offset:
empty cells are included and the walk continues, an enemy piece is
included and stops, an own piece or the board edge stops.  Knights and
kings (`stopShort`) stop after one step.  Fuel 8 covers the at most 7
steps of any ray. -/
def slideMoves (p : Position) (src : Square) (stopShort : Bool) (offset : Int) :
    Nat → Int → List Move
  | 0, _ => []
  | fuel + 1, ti =>
      let ti' := ti + offset
      if ti' < 0 ∨ ti'.toNat &&& 0x88 ≠ 0 then []
      else
        match Square.from_0x88i ti' with
        | none => []
        | some t =>
            match p.get t with
            | none =>
                { source := src, target := t, promotion := none }
                  :: (if stopShort then [] else slideMoves p src stopShort offset fuel ti')
            | some q =>
                if q.color = p.turn then []
                else [{ source := src, target := t, promotion := none }]

/-- The castling section of `get_pseudo_legal_moves`.  The source calls
`self.get_king(...).get_0x88_index()` and `Square.from_0x88_index` on
indices next to the king without guards; a missing king or an off-board
index would raise in Python and is modelled as yielding nothing. -/
def castlingMoves (p : Position) : List Move :=
  let opp := opposite_color p.get_turn
  let kChar := if p.get_turn = .b then 'k' else 'K'
  let qChar := if p.get_turn = .b then 'q' else 'Q'
  let kingSide :=
    if p.get_castling_right kChar then
      match p.get_king p.get_turn with
      | none => []
      | some ksq =>
          let ofI := ksq.get_0x88_index
          let toI := ofI + 2
          match Square.from_0x88i ((ofI : Int) + 1), Square.from_0x88i (toI : Int) with
          | some s1, some s2 =>
              if p.board (ofI + 1) = none ∧ p.board toI = none ∧ ¬ p.is_check ∧
                 ¬ p.is_attacked opp s1 ∧ ¬ p.is_attacked opp s2 then
                [{ source := ksq, target := s2, promotion := none }]
              else []
          | _, _ => []
    else []
  let queenSide :=
    if p.get_castling_right qChar then
      match p.get_king p.get_turn with
      | none => []
      | some ksq =>
          let ofI : Int := ksq.get_0x88_index
          let toI := ofI - 2
          match Square.from_0x88i (ofI - 1), Square.from_0x88i toI with
          | some s1, some s2 =>
              if pyRead p.board (ofI - 1) = some none ∧ pyRead p.board (ofI - 2) = some none ∧
                 pyRead p.board (ofI - 3) = some none ∧ ¬ p.is_check ∧
                 ¬ p.is_attacked opp s1 ∧ ¬ p.is_attacked opp s2 then
                [{ source := ksq, target := s2, promotion := none }]
              else []
          | _, _ => []
    else []
  kingSide ++ queenSide

/-- `Position.get_pseudo_legal_moves`: for every square holding a piece of
the side to move, the pawn block or the sliding walks, followed by the
castling section. -/
def Position.get_pseudo_legal_moves (p : Position) : List Move :=
  (Square.get_all.flatMap fun sq =>
    match p.get sq with
    | none => []
    | some piece =>
        if piece.color ≠ p.get_turn then []
        else if piece.ptype = .p then pawnMoves p sq
        else
          (PIECE_OFFSETS piece.ptype).flatMap fun offset =>
            slideMoves p sq (piece.ptype = .n ∨ piece.ptype = .k) offset 8
              (sq.get_0x88_index : Int))
  ++ castlingMoves p

/-! ### Making a move -/

/-- The `# Pawn moves.` / en-passant removal section of `make_move`:
on a pawn move that changes file without a capture, clear `target - 16`
when the side that just moved is white (`self.get_turn() == "b"` after
the toggle) and `target + 16` otherwise, exactly as the source does, and
treat the move as a capture.  Python exceptions (a raw board write out
of range) are modelled as `none`. -/
def mmPawn (p2 : Position) (m : Move) (capture : Option Piece) (moved : Piece) :
    Option (Position × Bool) :=
  if moved.ptype = .p then
    if m.target.get_file ≠ m.source.get_file ∧ capture = none then do
      let b2 ← pyWrite p2.board
        (if p2.get_turn = .b then (m.target.get_0x88_index : Int) - 16
         else (m.target.get_0x88_index : Int) + 16) none
      pure (({ p2 with board := b2 } : Position), true)
    else pure (p2, capture.isSome)
  else pure (p2, capture.isSome)

/-- The en-passant-file update of `make_move`: set the file on a
two-rank pawn move, clear it otherwise. -/
def mmEpFile (p3 : Position) (m : Move) (moved : Piece) : Position :=
  if moved.ptype = .p then
    if ((m.target.get_rank : Int) - m.source.get_rank).natAbs = 2 then
      { p3 with ep_file := some m.target.get_file }
    else { p3 with ep_file := none }
  else { p3 with ep_file := none }

/-- The `# Promotion.` section of `make_move`. -/
def mmPromotion (p4 : Position) (m : Move) : Option Position :=
  match m.promotion with
  | some promo => do
      let cur ← p4.get m.target
      pure (p4.set m.target (some ⟨cur.color, promo⟩))
  | none => pure p4

/-- The `# Potential castling.` section of `make_move`: when a king
moved two files, relocate the rook by raw board writes. -/
def mmCastleRook (p5 : Position) (m : Move) : Option Position :=
  match p5.get m.target with
  | none => none
  | some cur =>
      if cur.ptype = .k then
        if ((m.target.x.val : Int) - m.source.x.val).natAbs = 2 then do
          let rook_target : Int :=
            if (m.target.x.val : Int) - m.source.x.val = -2 then
              (m.target.get_0x88_index : Int) + 1
            else (m.target.get_0x88_index : Int) - 1
          let rook_source : Int :=
            if (m.target.x.val : Int) - m.source.x.val = -2 then
              (m.target.get_0x88_index : Int) - 2
            else (m.target.get_0x88_index : Int) + 1
          let v ← pyRead p5.board rook_source
          let b1 ← pyWrite p5.board rook_target v
          let b2 ← pyWrite b1 rook_source none
          pure { p5 with board := b2 }
        else pure p5
      else pure p5

/-- The `# Increment the half move counter.` section of `make_move`. -/
def mmClocks (p6 : Position) (m : Move) (captureFlag : Bool) : Option Position :=
  match p6.get m.target with
  | none => none
  | some cur2 =>
      if cur2.ptype = .p then pure { p6 with half_moves := 0 }
      else if captureFlag then pure { p6 with half_moves := 0 }
      else pure { p6 with half_moves := p6.half_moves + 1 }

/-- `Position.make_move`, transcribed section by section in source
order.  Python exceptions (an empty source square, a raw board access
out of range) are modelled as `none`. -/
def Position.make_move (p : Position) (m : Move) : Option Position := do
  let capture := p.get m.target
  let p1 := (p.set m.target (p.get m.source)).set m.source none
  let p2 := p1.toggle_turn
  let moved ← p2.get m.target
  let pcf ← mmPawn p2 m capture moved
  let p4 := mmEpFile pcf.1 m moved
  let p5 ← mmPromotion p4 m
  let p6 ← mmCastleRook p5 m
  let p7 ← mmClocks p6 m pcf.2
  pure (if p7.get_turn = .w then { p7 with move_number := p7.move_number + 1 } else p7)

/-- `Position.get_legal_moves`: keep each pseudo-legal move whose
application to a copy leaves the mover's king unattacked. -/
def Position.get_legal_moves (p : Position) : List Move :=
  p.get_pseudo_legal_moves.filter fun m =>
    match p.copy >>= (·.make_move m) with
    | some q => ¬ q.is_king_attacked p.get_turn
    | none => false

/-- `Position.is_checkmate`. -/
def Position.is_checkmate (p : Position) : Bool :=
  if ¬ p.is_check then false else p.get_legal_moves.isEmpty

/-- `Position.is_stalemate`. -/
def Position.is_stalemate (p : Position) : Bool :=
  if p.is_check then false else p.get_legal_moves.isEmpty

/-! ### Terminal-state classification and validation -/

/-- The bishop-shade scan of `is_insufficient_material`: walk all squares
remembering the shade of the first bishop met; a bishop of the other
shade returns false. -/
def shadeScan (p : Position) : List Square → Option Bool → Bool
  | [], _ => true
  | sq :: rest, acc =>
      match p.get sq with
      | some pc =>
          if pc.ptype = .b then
            if acc ≠ none ∧ acc ≠ some sq.is_light then false
            else shadeScan p rest (some sq.is_light)
          else shadeScan p rest acc
      | none => shadeScan p rest acc

/-- `Position.is_insufficient_material`. -/
def Position.is_insufficient_material (p : Position) : Bool :=
  let counts := p.get_piece_counts [.w, .b]
  let total := counts .p + counts .b + counts .n + counts .r + counts .k + counts .q
  if total = 2 then true
  else if total = 3 then
    counts .b = 1 ∨ counts .n = 1
  else if total = 2 + counts .b then
    if p.get_piece_counts [.w] .b ≠ 0 ∧ p.get_piece_counts [.b] .b ≠ 0 then
      shadeScan p Square.get_all none
    else false
  else false

/-- `Position.is_game_over`. -/
def Position.is_game_over (p : Position) : Bool :=
  p.is_checkmate ∨ p.is_stalemate ∨ p.is_insufficient_material

/-- The per-color checks of `validate`, in source order; the first failing
check yields its message. -/
def validateColor (p : Position) (c : Color) (name : PyStr) : Option PyStr :=
  let counts := p.get_piece_counts [c]
  if counts .k = 0 then some ("Missing ".toList ++ name ++ " king.".toList)
  else if counts .k > 1 then some ("Too many ".toList ++ name ++ " kings.".toList)
  else if counts .p > 8 then some ("Too many ".toList ++ name ++ " pawns.".toList)
  else if counts .p + counts .b + counts .n + counts .r + counts .k + counts .q > 16 then
    some ("Too many ".toList ++ name ++ " pieces.".toList)
  else none

/-- `Position.validate`, transcribed as written: each violation `raise`s,
so the result is the FIRST violation found (or `none`); the remaining
violations are never reported.  (The source even declares `validate`
without a `self` parameter, so in Python the call itself fails before
any check runs.) -/
def Position.validate (p : Position) : Option PyStr :=
  match validateColor p .w "white".toList with
  | some e => some e
  | none =>
      match validateColor p .b "black".toList with
      | some e => some e
      | none =>
          if p.is_king_attacked .w ∧ p.is_king_attacked .b then
            some "Both sides in check.".toList
          else if p.is_king_attacked (opposite_color p.get_turn) then
            some "Opposite king in check.".toList
          else none

/-! ### Reachability -/

/-- A convenient square constructor: file index and rank index (both
zero-based, so `mkSq 4 1` is e2). -/
def mkSq (f r : Fin 8) : Square := ⟨f, r⟩

/-- Folding `make_move` over a list of moves. -/
def applyMoves (p : Position) (ms : List Move) : Option Position :=
  ms.foldlM Position.make_move p

/-- Positions reachable from the `reset()` starting position by a
sequence of legal moves applied with `make_move`. -/
inductive Reachable : Position → Prop
  | base : Reachable startPos
  | step {p q : Position} {m : Move} :
      Reachable p → m ∈ p.get_legal_moves → p.make_move m = some q → Reachable q

/-- Positions reachable from a fresh `Position()` through the public
mutators named by the spec: `set`, `set_fen` (which subsumes `reset`),
`make_move`, `clear` and `set_castling_right`. -/
inductive OpReachable : Position → Prop
  | init : OpReachable emptyPosition
  | set {p : Position} (sq : Square) (pc : Option Piece) :
      OpReachable p → OpReachable (p.set sq pc)
  | fen {p q : Position} (f : PyStr) :
      OpReachable p → set_fen f = some q → OpReachable q
  | mv {p q : Position} (m : Move) :
      OpReachable p → p.make_move m = some q → OpReachable q
  | clear {p : Position} : OpReachable p → OpReachable p.clear
  | castle {p q : Position} (t : Char) (st : Bool) :
      OpReachable p → p.set_castling_right t st = some q → OpReachable q

/-- Like `OpReachable` but without `make_move` (whose raw board writes
bypass the castling re-derivation). -/
inductive SafeReachable : Position → Prop
  | init : SafeReachable emptyPosition
  | set {p : Position} (sq : Square) (pc : Option Piece) :
      SafeReachable p → SafeReachable (p.set sq pc)
  | fen {p q : Position} (f : PyStr) :
      SafeReachable p → set_fen f = some q → SafeReachable q
  | clear {p : Position} : SafeReachable p → SafeReachable p.clear
  | castle {p q : Position} (t : Char) (st : Bool) :
      SafeReachable p → p.set_castling_right t st = some q → SafeReachable q

/-! ### Fixed positions and move lists used by the claims -/

/-- C1 scenario: white pawn on e2, empty e3, black rook on e4. -/
def c1Pos : Position :=
  (set_fen "4k3/8/8/8/4r3/8/4P3/4K3 w - - 0 1".toList).getD emptyPosition

/-- C2 scenario: black just played d7-d5 past the white pawn on e5. -/
def c2Pos : Position :=
  (set_fen "rnbqkbnr/ppp1pppp/8/3pP3/8/8/PPPP1PPP/RNBQKBNR w KQkq d6 0 3".toList).getD
    emptyPosition

/-- The en-passant capture e5xd6 in `c2Pos`. -/
def c2Move : Move := { source := mkSq 4 4, target := mkSq 3 5, promotion := none }

/-- The position after e5xd6 in `c2Pos`. -/
def c2After : Position := (c2Pos.make_move c2Move).getD emptyPosition

/-- C5 scenario: white may castle king-side; black pawn on g3, en-passant
style diagonal g3-h2 available because h2 is empty. -/
def c5Pos : Position :=
  (set_fen "4k3/8/8/8/8/6p1/8/4K2R b K - 0 1".toList).getD emptyPosition

/-- The pawn move g3-h2 in `c5Pos` (a diagonal pawn move onto an empty
cell, which triggers the en-passant removal code of `make_move`). -/
def c5Move : Move := { source := mkSq 6 2, target := mkSq 7 1, promotion := none }

/-- The position after g3-h2: the raw en-passant board write has removed
the h1 rook without re-deriving castling rights. -/
def c5After : Position := (c5Pos.make_move c5Move).getD emptyPosition

/-- A line of legal moves from the start position after which the white
king has been removed from the board by the en-passant removal write:
1. g4 h5 2. Nf3 hxg4 3. Nc3 gxf3 4. e4 fxe2 — the last move is a
diagonal pawn move onto the empty e2 whose file matches the en-passant
file just set by e2-e4, and `make_move` then clears e1. -/
def cex4Moves : List Move :=
  [ { source := mkSq 6 1, target := mkSq 6 3, promotion := none }
  , { source := mkSq 7 6, target := mkSq 7 4, promotion := none }
  , { source := mkSq 6 0, target := mkSq 5 2, promotion := none }
  , { source := mkSq 7 4, target := mkSq 6 3, promotion := none }
  , { source := mkSq 1 0, target := mkSq 2 2, promotion := none }
  , { source := mkSq 6 3, target := mkSq 5 2, promotion := none }
  , { source := mkSq 4 1, target := mkSq 4 3, promotion := none }
  , { source := mkSq 5 2, target := mkSq 4 1, promotion := none } ]

/-- The final position of `cex4Moves`: no white king, yet the castling
string still holds `K` and `Q`. -/
def cex4Final : Position := (applyMoves startPos cex4Moves).getD emptyPosition

/-- The result of a FEN round trip on `cex4Final`. -/
def cex4RT : Position := (set_fen cex4Final.get_fen).getD emptyPosition

/-- The first `n` moves of `cex4Moves` applied to the start position. -/
def cex4Pos (n : Nat) : Position := (applyMoves startPos (cex4Moves.take n)).getD emptyPosition

/-! ### Insufficient material: spec-side characterization (claim C6) -/

/-- Spec-side count (for the refinement claim C6, following the spec's
material wording): pieces of one color and type over the 64 real
squares. -/
def boardCount (p : Position) (c : Color) (t : PieceType) : Nat :=
  Square.get_all.countP fun sq => decide (p.get sq = some ⟨c, t⟩)

/-- Spec-side: the total number of pieces of one color on the board. -/
def sideTotal (p : Position) (c : Color) : Nat :=
  boardCount p c .p + boardCount p c .n + boardCount p c .b +
    boardCount p c .r + boardCount p c .q + boardCount p c .k

/-- The 0x88-flagged cells among the 128 are empty (spec section 3 lists
this as a Board State invariant; `get_piece_counts` walks all 128 cells
while the shade scan walks only the 64 real squares, so the claim is
read on boards satisfying it). -/
def offboardEmpty (p : Position) : Prop :=
  ∀ i : Nat, i < 128 → ¬(i % 16 < 8 ∧ i / 16 < 8) → p.board i = none

/-- The spec's characterization of insufficient material, following its
words: king versus king; king plus one bishop or one knight versus bare
king; or both sides reduced to king plus bishops (at least one each),
with every bishop on the board on squares of one fixed shade. -/
def spec_insufficient (p : Position) : Prop :=
  (∀ sq ∈ Square.get_all, ∀ pc : Piece, p.get sq = some pc → pc.ptype = .k)
  ∨ (∃ c : Color, boardCount p c .b + boardCount p c .n = 1 ∧
      sideTotal p c = 2 ∧ sideTotal p (opposite_color c) = 1)
  ∨ ((∀ sq ∈ Square.get_all, ∀ pc : Piece, p.get sq = some pc →
        pc.ptype = .k ∨ pc.ptype = .b) ∧
     1 ≤ boardCount p .w .b ∧ 1 ≤ boardCount p .b .b ∧
     ∃ sh : Bool, ∀ sq ∈ Square.get_all, ∀ pc : Piece, p.get sq = some pc →
        pc.ptype = .b → sq.is_light = sh)

/-- The on-board 0x88 indices, in enumeration order. -/
def onIdx : List Nat := Square.get_all.map Square.get_0x88_index

/-- The off-board cell indices below 128. -/
def offIdx : List Nat :=
  (List.range 128).filter fun i => !(decide (i % 16 < 8) && decide (i / 16 < 8))

/-- The scenario king+bishop versus king used as witness for C6. -/
def c6Pos : Position :=
  (set_fen "4k3/8/8/8/8/8/2B5/4K3 w - - 0 1".toList).getD emptyPosition

/-! ### The castling string stays canonical (claim C4 machinery) -/

/-- The castling string is an ordered subset of `KQkq`: filtering `KQkq`
by membership reproduces it. -/
def canonicalList (c : List Char) : Prop :=
  (['K', 'Q', 'k', 'q'].filter fun t => decide (t ∈ c)) = c

/-- The en-passant file, when present, is a file letter. -/
def epOK (p : Position) : Prop :=
  p.ep_file = none ∨ ∃ f ∈ (['a', 'b', 'c', 'd', 'e', 'f', 'g', 'h'] : List Char),
    p.ep_file = some f

/-! ### Replaying the placement field rebuilds the board -/

/-- Sequential placement of one rank's cells starting at cell `j`,
skipping empty cells, exactly as `set_fen`'s population loop does. -/
def overlay : List (Option Piece) → Nat → Board → Board
  | [], _, b => b
  | none :: r, j, b => overlay r (j + 1) b
  | some pc :: r, j, b => overlay r (j + 1) (writeCell b j (some pc))

/-- Placement of successive ranks at offsets 16 apart. -/
def overlayRanks : List (List (Option Piece)) → Nat → Board → Board
  | [], _, b => b
  | cells :: rest, j, b => overlayRanks rest (j + 16) (overlay cells j b)

/-! ### Tokens of a generated FEN -/

/-- The en-passant field emitted by `get_fen`. -/
def Position.epTok (p : Position) : PyStr :=
  match p.ep_file with
  | none => ['-']
  | some f => [f, if p.turn = Color.w then '6' else '3']


/-! ### Claims -/

set_option maxRecDepth 40000
set_option maxHeartbeats 16000000

/-- Claim C1 (status: code_bug).  The double-push condition of the
pseudo-legal generator transcribes
`(turn == "w" and rank == 2) or (turn == "b" and rank == 7 and not get(target))`,
so for white the emptiness of the destination is never checked: in
`c1Pos` the white pawn on e2 has an empty e3 but a black rook on e4, and
the generator still emits the double push e2-e4, contradicting the
claim that no double push is emitted onto an occupied destination. -/
theorem double_push_emitted_onto_occupied_square :
    c1Pos.get (mkSq 4 1) = some ⟨.w, .p⟩ ∧
    c1Pos.get (mkSq 4 2) = none ∧
    c1Pos.get (mkSq 4 3) = some ⟨.b, .r⟩ ∧
    ({ source := mkSq 4 1, target := mkSq 4 3, promotion := none } : Move)
      ∈ c1Pos.get_pseudo_legal_moves := by
  refine ⟨by decide, by decide, by decide, by decide⟩

/-- Claim C2 (status: code_bug).  In `c2Pos` the en-passant capture
e5xd6 is a legal move onto an empty target, but `make_move` clears
`target - 16` (d7, one rank behind the target away from the capturing
side's home rank) instead of `target + 16` (d5): after the move the
black pawn that double-pushed to d5 is still on the board, so the
"captured" pawn is never removed. -/
theorem en_passant_capture_leaves_pawn_on_board :
    c2Move ∈ c2Pos.get_legal_moves ∧
    c2Pos.get (mkSq 3 5) = none ∧
    c2Pos.make_move c2Move = some c2After ∧
    c2After.get (mkSq 3 4) = some ⟨.b, .p⟩ ∧
    c2After.get (mkSq 3 5) = some ⟨.w, .p⟩ := by
  refine ⟨by decide, by decide, rfl, by decide, by decide⟩

/-- Claim C3 (status: code_bug).  The pawn block of the generator never
yields the quiet single push (only promotions are yielded when the
square ahead is empty), so from the `reset()` starting position
`get_legal_moves` contains 12 moves (8 double pushes and 4 knight
moves), not the 20 the claim states. -/
theorem start_position_has_twelve_legal_moves :
    reset = some startPos ∧ (startPos.get_legal_moves).length = 12 := by
  exact ⟨rfl, by decide⟩

/-- Claim C5, counterexample.  `c5After` is reachable through the public
operations (`set_fen`, then `make_move`), and its castling string still
reports the white king-side right although the en-passant removal write
of `make_move` has cleared the h1 rook: `get_castling_right 'K'` is true
while `get_theoretical_castling_right 'K'` is false. -/
theorem castling_right_invariant_broken_by_make_move :
    OpReachable c5After ∧
    c5After.get_castling_right 'K' = true ∧
    c5After.get_theoretical_castling_right 'K' = false ∧
    c5After.board 119 = none := by
  refine ⟨?_, by decide, by decide, by decide⟩
  have h1 : set_fen "4k3/8/8/8/8/6p1/8/4K2R b K - 0 1".toList = some c5Pos := rfl
  have h2 : c5Pos.make_move c5Move = some c5After := rfl
  exact OpReachable.mv c5Move (OpReachable.fen _ OpReachable.init h1) h2


theorem cex4_mem0 : ({ source := mkSq 6 1, target := mkSq 6 3, promotion := none } : Move) ∈ (cex4Pos 0).get_legal_moves := by
  unfold Position.get_legal_moves
  refine List.mem_filter.mpr ⟨by decide, by decide⟩

theorem cex4_mk0 : (cex4Pos 0).make_move ({ source := mkSq 6 1, target := mkSq 6 3, promotion := none } : Move) = some (cex4Pos 1) := rfl

theorem cex4_mem1 : ({ source := mkSq 7 6, target := mkSq 7 4, promotion := none } : Move) ∈ (cex4Pos 1).get_legal_moves := by
  unfold Position.get_legal_moves
  refine List.mem_filter.mpr ⟨by decide, by decide⟩

theorem cex4_mk1 : (cex4Pos 1).make_move ({ source := mkSq 7 6, target := mkSq 7 4, promotion := none } : Move) = some (cex4Pos 2) := rfl

theorem cex4_mem2 : ({ source := mkSq 6 0, target := mkSq 5 2, promotion := none } : Move) ∈ (cex4Pos 2).get_legal_moves := by
  unfold Position.get_legal_moves
  refine List.mem_filter.mpr ⟨by decide, by decide⟩

theorem cex4_mk2 : (cex4Pos 2).make_move ({ source := mkSq 6 0, target := mkSq 5 2, promotion := none } : Move) = some (cex4Pos 3) := rfl

theorem cex4_mem3 : ({ source := mkSq 7 4, target := mkSq 6 3, promotion := none } : Move) ∈ (cex4Pos 3).get_legal_moves := by
  unfold Position.get_legal_moves
  refine List.mem_filter.mpr ⟨by decide, by decide⟩

theorem cex4_mk3 : (cex4Pos 3).make_move ({ source := mkSq 7 4, target := mkSq 6 3, promotion := none } : Move) = some (cex4Pos 4) := rfl

theorem cex4_mem4 : ({ source := mkSq 1 0, target := mkSq 2 2, promotion := none } : Move) ∈ (cex4Pos 4).get_legal_moves := by
  unfold Position.get_legal_moves
  refine List.mem_filter.mpr ⟨by decide, by decide⟩

theorem cex4_mk4 : (cex4Pos 4).make_move ({ source := mkSq 1 0, target := mkSq 2 2, promotion := none } : Move) = some (cex4Pos 5) := rfl

theorem cex4_mem5 : ({ source := mkSq 6 3, target := mkSq 5 2, promotion := none } : Move) ∈ (cex4Pos 5).get_legal_moves := by
  unfold Position.get_legal_moves
  refine List.mem_filter.mpr ⟨by decide, by decide⟩

theorem cex4_mk5 : (cex4Pos 5).make_move ({ source := mkSq 6 3, target := mkSq 5 2, promotion := none } : Move) = some (cex4Pos 6) := rfl

theorem cex4_mem6 : ({ source := mkSq 4 1, target := mkSq 4 3, promotion := none } : Move) ∈ (cex4Pos 6).get_legal_moves := by
  unfold Position.get_legal_moves
  refine List.mem_filter.mpr ⟨by decide, by decide⟩

theorem cex4_mk6 : (cex4Pos 6).make_move ({ source := mkSq 4 1, target := mkSq 4 3, promotion := none } : Move) = some (cex4Pos 7) := rfl

theorem cex4_mem7 : ({ source := mkSq 5 2, target := mkSq 4 1, promotion := none } : Move) ∈ (cex4Pos 7).get_legal_moves := by
  unfold Position.get_legal_moves
  refine List.mem_filter.mpr ⟨by decide, by decide⟩

theorem cex4_mk7 : (cex4Pos 7).make_move ({ source := mkSq 5 2, target := mkSq 4 1, promotion := none } : Move) = some (cex4Pos 8) := rfl

theorem cex4_reach : Reachable (cex4Pos 8) :=
  Reachable.step (Reachable.step (Reachable.step (Reachable.step (Reachable.step
    (Reachable.step (Reachable.step (Reachable.step Reachable.base cex4_mem0 cex4_mk0)
    cex4_mem1 cex4_mk1) cex4_mem2 cex4_mk2) cex4_mem3 cex4_mk3) cex4_mem4 cex4_mk4)
    cex4_mem5 cex4_mk5) cex4_mem6 cex4_mk6) cex4_mem7 cex4_mk7

theorem cex4Pos_eight : cex4Pos 8 = cex4Final := rfl

/-- Claim C4, counterexample.  The position `cex4Final` is reachable
from the `reset()` start by the legal line `cex4Moves` (1. g4 h5 2. Nf3
hxg4 3. Nc3 gxf3 4. e4 fxe2): the final move is a pawn move onto the
empty e2 whose file matches the en-passant file set by e2-e4, so
`make_move` clears cell e1 — removing the white king while the castling
string still holds `KQ`.  Re-serializing after a FEN round trip then
drops `KQ` (the rights are no longer theoretically possible), so
`get_fen` after `set_fen (get_fen ...)` differs from the original. -/
theorem fen_round_trip_changes_reachable_position :
    Reachable cex4Final ∧
    set_fen cex4Final.get_fen = some cex4RT ∧
    cex4RT.get_fen ≠ cex4Final.get_fen :=
  ⟨cex4Pos_eight ▸ cex4_reach, rfl, by decide⟩

/-- Claim C7 (status: code_bug).  The empty position violates two of the
checks of `validate` at once (both kings are missing), but the body of
`validate` raises at the first violation, so only
`"Missing white king."` is ever reported (the source even declares
`validate` without `self`, making the method uncallable in the first
place). -/
theorem validate_reports_only_first_violation :
    emptyPosition.get_piece_counts [.w] .k = 0 ∧
    emptyPosition.get_piece_counts [.b] .k = 0 ∧
    emptyPosition.validate = some "Missing white king.".toList := by
  refine ⟨by decide, by decide, by decide⟩

/-- Claim C8 (status: code_bug).  The body of `set_move_number` is
`return self._move_number`: it returns the old value and never assigns,
so after `set_move_number 5` on the start position (whose move number
is 1) `get_move_number` still returns 1, not 5. -/
theorem set_move_number_does_not_set :
    (startPos.set_move_number 5).1.get_move_number = 1 ∧
    (startPos.set_move_number 5).1.get_move_number ≠ 5 := by
  refine ⟨by decide, by decide⟩

/-- Claim C10 (status: confirmed).  `clear` empties every board cell and
the castling string but leaves turn, en-passant file, half-move clock
and move number untouched; in particular an en-passant file set on an
empty position survives `clear` and still shows up (as `e6`) in the FEN
serialized afterwards. -/
theorem clear_frame_conditions :
    (∀ p : Position, (∀ i : Nat, p.clear.board i = none) ∧
      p.clear.castling = [] ∧
      p.clear.turn = p.turn ∧
      p.clear.ep_file = p.ep_file ∧
      p.clear.half_moves = p.half_moves ∧
      p.clear.move_number = p.move_number) ∧
    (emptyPosition.set_ep_file (some 'e')).map (fun q => q.clear.get_fen)
      = some "8/8/8/8/8/8/8/8 w - e6 0 1".toList := by
  constructor
  · intro p
    exact ⟨fun _ => rfl, rfl, rfl, rfl, rfl, rfl⟩
  · decide

/-! ### Soundness of the castling re-derivation (claim C5) -/

theorem updateCastlingStep_board (q : Position) (t : Char) :
    (updateCastlingStep q t).board = q.board := by
  unfold updateCastlingStep
  split <;> rfl

theorem foldl_updateCastlingStep_board (ts : List Char) (q : Position) :
    (ts.foldl updateCastlingStep q).board = q.board := by
  induction ts generalizing q with
  | nil => rfl
  | cons t ts ih => rw [List.foldl_cons, ih, updateCastlingStep_board]

theorem theoretical_of_board_eq {p q : Position} (h : q.board = p.board) (t : Char) :
    q.get_theoretical_castling_right t = p.get_theoretical_castling_right t := by
  unfold Position.get_theoretical_castling_right
  rw [h]

theorem mem_core {q : Position} {t : Char} {status : Bool} {c : Char}
    (h : c ∈ q.set_castling_right_core t status) :
    (if c = t then status else q.get_castling_right c) = true := by
  unfold Position.set_castling_right_core at h
  simpa using List.of_mem_filter h

theorem fold_updateCastling_sound (ts : List Char) (q : Position) :
    (∀ t ∈ ts, t ∈ (ts.foldl updateCastlingStep q).castling →
        q.get_theoretical_castling_right t = true)
    ∧ (∀ c, c ∈ (ts.foldl updateCastlingStep q).castling → c ∈ q.castling) := by
  induction ts generalizing q with
  | nil => exact ⟨fun t ht => absurd ht (by simp), fun c h => h⟩
  | cons t ts ih =>
      rw [List.foldl_cons]
      obtain ⟨ihA, ihB⟩ := ih (updateCastlingStep q t)
      have hstep : ∀ c, c ∈ (updateCastlingStep q t).castling → c ∈ q.castling := by
        intro c hc
        unfold updateCastlingStep at hc
        split at hc
        · exact hc
        · have hp := mem_core (q := q) hc
          by_cases hct : c = t
          · rw [if_pos hct] at hp
            exact absurd hp (by simp)
          · rw [if_neg hct] at hp
            exact of_decide_eq_true hp
      constructor
      · intro u hu hcon
        rcases List.mem_cons.mp hu with rfl | hmem
        · have hm : u ∈ (updateCastlingStep q u).castling := ihB u hcon
          unfold updateCastlingStep at hm
          by_cases hth : q.get_theoretical_castling_right u = true
          · exact hth
          · rw [if_neg hth] at hm
            have hp := mem_core (q := q) hm
            rw [if_pos rfl] at hp
            exact absurd hp (by simp)
        · have := ihA u hmem hcon
          rwa [theoretical_of_board_eq (updateCastlingStep_board q t)] at this
      · intro c hc
        exact hstep c (ihB c hc)

theorem updateCastling_sound (p : Position) (t : Char)
    (ht : t ∈ ['K', 'Q', 'k', 'q'])
    (h : (p.updateCastling).get_castling_right t = true) :
    (p.updateCastling).get_theoretical_castling_right t = true := by
  have hmem : t ∈ (p.updateCastling).castling := of_decide_eq_true h
  have hb : (p.updateCastling).board = p.board :=
    foldl_updateCastlingStep_board ['K', 'Q', 'k', 'q'] p
  rw [theoretical_of_board_eq hb]
  exact (fold_updateCastling_sound ['K', 'Q', 'k', 'q'] p).1 t ht hmem

theorem set_sound (p : Position) (sq : Square) (pc : Option Piece) (t : Char)
    (ht : t ∈ ['K', 'Q', 'k', 'q'])
    (h : (p.set sq pc).get_castling_right t = true) :
    (p.set sq pc).get_theoretical_castling_right t = true :=
  updateCastling_sound { p with board := writeCell p.board sq.get_0x88_index pc } t ht h

theorem set_fen_sound {f : PyStr} {q : Position} (hq : set_fen f = some q)
    (t : Char) (ht : t ∈ ['K', 'Q', 'k', 'q'])
    (h : q.get_castling_right t = true) :
    q.get_theoretical_castling_right t = true := by
  unfold set_fen at hq
  rcases Option.map_eq_some'.mp hq with ⟨p0, _, rfl⟩
  exact updateCastling_sound p0 t ht h

theorem set_castling_right_sound {p q : Position} {t0 : Char} {st : Bool}
    (hq : p.set_castling_right t0 st = some q)
    (inv : ∀ t ∈ (['K', 'Q', 'k', 'q'] : List Char), p.get_castling_right t = true →
      p.get_theoretical_castling_right t = true)
    (t : Char) (ht : t ∈ ['K', 'Q', 'k', 'q'])
    (h : q.get_castling_right t = true) :
    q.get_theoretical_castling_right t = true := by
  unfold Position.set_castling_right at hq
  split at hq
  · split at hq
    · exact absurd hq (by simp)
    · rename_i hcond
      injection hq with hq
      subst hq
      have hb : ({ p with castling := p.set_castling_right_core t0 st } : Position).board
          = p.board := rfl
      rw [theoretical_of_board_eq hb]
      have hmem : t ∈ p.set_castling_right_core t0 st := of_decide_eq_true h
      have hp := mem_core (q := p) hmem
      by_cases htt : t = t0
      · rw [if_pos htt] at hp
        subst htt
        by_contra hth
        exact hcond ⟨hp, hth⟩
      · rw [if_neg htt] at hp
        exact inv t ht hp
  · exact absurd hq (by simp)

theorem safeReachable_sound (p : Position) (hp : SafeReachable p) :
    ∀ t ∈ (['K', 'Q', 'k', 'q'] : List Char), p.get_castling_right t = true →
      p.get_theoretical_castling_right t = true := by
  induction hp with
  | init =>
      intro t _ h
      exact absurd (of_decide_eq_true h) (List.not_mem_nil t)
  | set sq pc _ _ =>
      intro t ht h
      exact set_sound _ sq pc t ht h
  | fen f _ hq _ =>
      intro t ht h
      exact set_fen_sound hq t ht h
  | clear _ _ =>
      intro t _ h
      exact absurd h (by simp [Position.get_castling_right, Position.clear])
  | castle t0 st _ hq ih =>
      intro t ht h
      exact set_castling_right_sound hq ih t ht h

theorem set_castling_right_true_fails (p : Position) (t : Char)
    (h : p.get_theoretical_castling_right t = false) :
    p.set_castling_right t true = none := by
  unfold Position.set_castling_right
  split
  · rw [if_pos]
    exact ⟨rfl, by simp [h]⟩
  · rfl

/-- Claim C5, amended (status: corrected).  When `make_move` is excluded
(its raw en-passant and rook-relocation board writes bypass the
re-derivation, see the counterexample), every position reachable through
the public mutators `set`, `set_fen` (hence `reset`), `clear` and
`set_castling_right` reports a castling right only if it is
theoretically supported; moreover any single `set` re-derives the rights
(so moving a king or rook off its home square via `set` revokes the
corresponding rights without an explicit clearing call), and
`set_castling_right (t, true)` fails whenever the placement does not
support the right. -/
theorem castling_rights_theoretically_supported :
    (∀ p : Position, SafeReachable p → ∀ t ∈ (['K', 'Q', 'k', 'q'] : List Char),
        p.get_castling_right t = true → p.get_theoretical_castling_right t = true) ∧
    (∀ (p : Position) (sq : Square) (pc : Option Piece),
        ∀ t ∈ (['K', 'Q', 'k', 'q'] : List Char),
        (p.set sq pc).get_castling_right t = true →
          (p.set sq pc).get_theoretical_castling_right t = true) ∧
    (∀ (p : Position) (t : Char), p.get_theoretical_castling_right t = false →
        p.set_castling_right t true = none) :=
  ⟨fun p hp => safeReachable_sound p hp,
   fun p sq pc t ht h => set_sound p sq pc t ht h,
   fun p t h => set_castling_right_true_fails p t h⟩

/-- Witness for `castling_rights_theoretically_supported`: the start
position is safely reachable and holds the `K` right, so the right is
theoretically supported there; and granting `K` on the empty position
fails. -/
theorem castling_rights_theoretically_supported_witness :
    startPos.get_theoretical_castling_right 'K' = true ∧
    emptyPosition.set_castling_right 'K' true = none :=
  ⟨castling_rights_theoretically_supported.1 startPos
      (SafeReachable.fen startFen SafeReachable.init rfl) 'K' (by decide) (by decide),
   castling_rights_theoretically_supported.2.2 emptyPosition 'K' (by decide)⟩

/-! ### Insufficient material (claim C6) -/

theorem range128_perm : (List.range 128).Perm (onIdx ++ offIdx) := by decide

theorem piece_counts_single (p : Position) (hoff : offboardEmpty p)
    (c : Color) (t : PieceType) :
    p.get_piece_counts [c] t = boardCount p c t := by
  unfold Position.get_piece_counts boardCount
  rw [range128_perm.countP_eq, List.countP_append]
  have hoff0 : (offIdx.countP fun i =>
      match p.board i with
      | some pc => decide (pc.color ∈ [c]) && decide (pc.ptype = t)
      | none => false) = 0 := by
    rw [List.countP_eq_zero]
    intro i hi
    have hmem := List.mem_filter.mp hi
    have hlt : i < 128 := List.mem_range.mp hmem.1
    have hnot : ¬(i % 16 < 8 ∧ i / 16 < 8) := by
      intro hcon
      simp [hcon.1, hcon.2] at hmem
    rw [hoff i hlt hnot]
    simp
  rw [hoff0, Nat.add_zero, onIdx, List.countP_map]
  refine List.countP_congr ?_
  intro sq _
  have hpt : (match p.board sq.get_0x88_index with
        | some pc => decide (pc.color ∈ [c]) && decide (pc.ptype = t)
        | none => false)
      = decide (p.get sq = some ⟨c, t⟩) := by
    unfold Position.get
    cases hb : p.board sq.get_0x88_index with
    | none => simp
    | some pc =>
        obtain ⟨pcc, pct⟩ := pc
        simp [Piece.mk.injEq, Bool.and_comm, and_comm]
  simp only [Function.comp_apply]
  rw [hpt]

theorem countP_or_split {α : Type} (l : List α) (f g h : α → Bool)
    (hfg : ∀ a ∈ l, h a = (f a || g a)) (hex : ∀ a ∈ l, ¬(f a = true ∧ g a = true)) :
    l.countP h = l.countP f + l.countP g := by
  induction l with
  | nil => rfl
  | cons a l ih =>
      simp only [List.countP_cons]
      rw [ih (fun x hx => hfg x (List.mem_cons_of_mem a hx))
            (fun x hx => hex x (List.mem_cons_of_mem a hx))]
      have := hfg a (List.mem_cons_self a l)
      have hx := hex a (List.mem_cons_self a l)
      cases hf : f a <;> cases hg : g a
      · simp [this, hf, hg]
      · simp [this, hf, hg]; omega
      · simp [this, hf, hg]; omega
      · exact absurd ⟨hf, hg⟩ hx

theorem piece_counts_pair (p : Position) (t : PieceType) :
    p.get_piece_counts [.w, .b] t =
      p.get_piece_counts [.w] t + p.get_piece_counts [.b] t := by
  unfold Position.get_piece_counts
  refine countP_or_split _ _ _ _ ?_ ?_
  · intro i _
    cases hb : p.board i with
    | none => simp
    | some pc => cases hc : pc.color <;> simp [hb, hc]
  · intro i _
    cases hb : p.board i with
    | none => simp
    | some pc => cases hc : pc.color <;> simp [hb, hc]

theorem boardCount_pos_of_mem {p : Position} {sq : Square} {c : Color}
    {t : PieceType} (hsq : sq ∈ Square.get_all) (h : p.get sq = some ⟨c, t⟩) :
    1 ≤ boardCount p c t := by
  have : 0 < boardCount p c t := by
    rw [boardCount, List.countP_pos_iff]
    exact ⟨sq, hsq, by simp [h]⟩
  omega

theorem boardCount_eq_zero_iff {p : Position} {c : Color} {t : PieceType} :
    boardCount p c t = 0 ↔ ∀ sq ∈ Square.get_all, p.get sq ≠ some ⟨c, t⟩ := by
  rw [boardCount, List.countP_eq_zero]
  constructor
  · intro h sq hsq hcon
    have := h sq hsq
    simp [hcon] at this
  · intro h sq hsq
    simp [h sq hsq]

theorem shadeScan_some (p : Position) :
    ∀ (l : List Square) (a : Bool),
      shadeScan p l (some a) = true ↔
        ∀ sq ∈ l, ∀ pc : Piece, p.get sq = some pc → pc.ptype = .b →
          sq.is_light = a := by
  intro l
  induction l with
  | nil => intro a; simp [shadeScan]
  | cons sq l ih =>
      intro a
      cases hb : p.get sq with
      | none =>
          simp only [shadeScan, hb]
          rw [ih a]
          constructor
          · intro h u hu pc hpc hbp
            rcases List.mem_cons.mp hu with rfl | hu
            · rw [hb] at hpc; cases hpc
            · exact h u hu pc hpc hbp
          · intro h u hu pc hpc hbp
            exact h u (List.mem_cons_of_mem sq hu) pc hpc hbp
      | some pc =>
          by_cases hbp : pc.ptype = .b
          · by_cases hl : sq.is_light = a
            · have hcond : ¬((some a : Option Bool) ≠ none ∧
                  (some a : Option Bool) ≠ some sq.is_light) := by
                simp [hl]
              simp only [shadeScan, hb, if_pos hbp, if_neg hcond]
              rw [hl, ih a]
              constructor
              · intro h u hu pc2 hpc hbp2
                rcases List.mem_cons.mp hu with rfl | hu
                · exact hl
                · exact h u hu pc2 hpc hbp2
              · intro h u hu pc2 hpc hbp2
                exact h u (List.mem_cons_of_mem sq hu) pc2 hpc hbp2
            · have hcond : ((some a : Option Bool) ≠ none ∧
                  (some a : Option Bool) ≠ some sq.is_light) := by
                constructor
                · simp
                · intro hcon
                  injection hcon with hcon
                  exact hl hcon.symm
              simp only [shadeScan, hb, if_pos hbp, if_pos hcond]
              constructor
              · intro h; cases h
              · intro h
                exact absurd (h sq (List.mem_cons_self sq l) pc hb hbp) hl
          · simp only [shadeScan, hb, if_neg hbp]
            rw [ih a]
            constructor
            · intro h u hu pc2 hpc hbp2
              rcases List.mem_cons.mp hu with rfl | hu
              · rw [hb] at hpc
                injection hpc with hpc
                subst hpc
                exact absurd hbp2 hbp
              · exact h u hu pc2 hpc hbp2
            · intro h u hu pc2 hpc hbp2
              exact h u (List.mem_cons_of_mem sq hu) pc2 hpc hbp2

theorem shadeScan_none (p : Position) :
    ∀ l : List Square,
      shadeScan p l none = true ↔
        ∃ sh : Bool, ∀ sq ∈ l, ∀ pc : Piece, p.get sq = some pc →
          pc.ptype = .b → sq.is_light = sh := by
  intro l
  induction l with
  | nil =>
      simp only [shadeScan]
      exact ⟨fun _ => ⟨true, by simp⟩, fun _ => trivial⟩
  | cons sq l ih =>
      cases hb : p.get sq with
      | none =>
          simp only [shadeScan, hb]
          rw [ih]
          constructor
          · rintro ⟨sh, h⟩
            refine ⟨sh, fun u hu pc hpc hbp => ?_⟩
            rcases List.mem_cons.mp hu with rfl | hu
            · rw [hb] at hpc; cases hpc
            · exact h u hu pc hpc hbp
          · rintro ⟨sh, h⟩
            exact ⟨sh, fun u hu pc hpc hbp =>
              h u (List.mem_cons_of_mem sq hu) pc hpc hbp⟩
      | some pc =>
          by_cases hbp : pc.ptype = .b
          · have hcond : ¬((none : Option Bool) ≠ none ∧
                (none : Option Bool) ≠ some sq.is_light) := by simp
            simp only [shadeScan, hb, if_pos hbp, if_neg hcond]
            rw [shadeScan_some p l sq.is_light]
            constructor
            · intro h
              refine ⟨sq.is_light, fun u hu pc2 hpc hbp2 => ?_⟩
              rcases List.mem_cons.mp hu with rfl | hu
              · rfl
              · exact h u hu pc2 hpc hbp2
            · rintro ⟨sh, h⟩
              have hsq : sq.is_light = sh := h sq (List.mem_cons_self sq l) pc hb hbp
              intro u hu pc2 hpc hbp2
              rw [h u (List.mem_cons_of_mem sq hu) pc2 hpc hbp2, hsq]
          · simp only [shadeScan, hb, if_neg hbp]
            rw [ih]
            constructor
            · rintro ⟨sh, h⟩
              refine ⟨sh, fun u hu pc2 hpc hbp2 => ?_⟩
              rcases List.mem_cons.mp hu with rfl | hu
              · rw [hb] at hpc
                injection hpc with hpc
                subst hpc
                exact absurd hbp2 hbp
              · exact h u hu pc2 hpc hbp2
            · rintro ⟨sh, h⟩
              exact ⟨sh, fun u hu pc2 hpc hbp2 =>
                h u (List.mem_cons_of_mem sq hu) pc2 hpc hbp2⟩

/-- Claim C6 (status: confirmed).  For boards with exactly one king per
side (and empty 0x88-flagged cells, a spec invariant),
`is_insufficient_material` returns true exactly for: king versus king;
king plus one bishop or one knight versus bare king; or both sides
reduced to king plus bishops (at least one bishop each) with every
bishop on one fixed shade — in particular it is false whenever bishops
of both shades are present. -/
theorem insufficient_material_characterization (p : Position)
    (hoff : offboardEmpty p)
    (hwk : boardCount p .w .k = 1) (hbk : boardCount p .b .k = 1) :
    p.is_insufficient_material = true ↔ spec_insufficient p := by
  have hs := piece_counts_single p hoff
  have hpairw : ∀ t, p.get_piece_counts [.w, .b] t =
      boardCount p .w t + boardCount p .b t := fun t => by
    rw [piece_counts_pair, hs, hs]
  have hposn : ∀ sq ∈ Square.get_all, ∀ pc : Piece, p.get sq = some pc →
      1 ≤ boardCount p pc.color pc.ptype := by
    intro sq hsq pc h
    exact boardCount_pos_of_mem hsq h
  have hK1 : (∀ sq ∈ Square.get_all, ∀ pc : Piece, p.get sq = some pc →
        pc.ptype = .k) →
      ∀ c t, t ≠ PieceType.k → boardCount p c t = 0 := by
    intro h c t ht
    rw [boardCount_eq_zero_iff]
    intro sq hsq hcon
    exact ht (h sq hsq ⟨c, t⟩ hcon)
  have hK2 : (∀ c t, t ≠ PieceType.k → boardCount p c t = 0) →
      ∀ sq ∈ Square.get_all, ∀ pc : Piece, p.get sq = some pc →
        pc.ptype = .k := by
    intro h sq hsq pc hpc
    by_contra hne
    have h1 := hposn sq hsq pc hpc
    rw [h pc.color pc.ptype hne] at h1
    omega
  have hKB1 : (∀ sq ∈ Square.get_all, ∀ pc : Piece, p.get sq = some pc →
        pc.ptype = .k ∨ pc.ptype = .b) →
      ∀ c t, t ≠ PieceType.k → t ≠ PieceType.b → boardCount p c t = 0 := by
    intro h c t htk htb
    rw [boardCount_eq_zero_iff]
    intro sq hsq hcon
    rcases h sq hsq ⟨c, t⟩ hcon with h1 | h1
    · exact htk h1
    · exact htb h1
  have hKB2 : (∀ c t, t ≠ PieceType.k → t ≠ PieceType.b → boardCount p c t = 0) →
      ∀ sq ∈ Square.get_all, ∀ pc : Piece, p.get sq = some pc →
        pc.ptype = .k ∨ pc.ptype = .b := by
    intro h sq hsq pc hpc
    by_cases hk : pc.ptype = .k
    · exact Or.inl hk
    · by_cases hb : pc.ptype = .b
      · exact Or.inr hb
      · have h1 := hposn sq hsq pc hpc
        rw [h pc.color pc.ptype hk hb] at h1
        omega
  have hT : ∀ c : Color, sideTotal p c =
      boardCount p c .p + boardCount p c .n + boardCount p c .b +
        boardCount p c .r + boardCount p c .q + boardCount p c .k := fun c => rfl
  simp only [Position.is_insufficient_material, hpairw, hs]
  split_ifs with h2 h3 h4 h5
  · -- total = 2: king versus king
    refine iff_of_true rfl (Or.inl (hK2 ?_))
    intro c t ht
    cases c <;> cases t <;> first | exact absurd rfl ht | omega
  · -- total = 3: one minor beside the kings
    rw [decide_eq_true_eq]
    constructor
    · intro hmn
      refine Or.inr (Or.inl ?_)
      rcases hmn with hB | hN
      · by_cases hw : boardCount p .w .b = 1
        · exact ⟨.w, by
            rw [hT, hT]
            simp only [opposite_color]
            omega⟩
        · exact ⟨.b, by
            rw [hT, hT]
            simp only [opposite_color]
            omega⟩
      · by_cases hw : boardCount p .w .n = 1
        · exact ⟨.w, by
            rw [hT, hT]
            simp only [opposite_color]
            omega⟩
        · exact ⟨.b, by
            rw [hT, hT]
            simp only [opposite_color]
            omega⟩
    · intro hspec
      rcases hspec with h1 | ⟨c, hc1, hc2, hc3⟩ | ⟨hkb, hwb, hbb, _⟩
      · have := hK1 h1
        exfalso
        have e1 := this .w .p (by simp)
        have e2 := this .b .p (by simp)
        have e3 := this .w .n (by simp)
        have e4 := this .b .n (by simp)
        have e5 := this .w .b (by simp)
        have e6 := this .b .b (by simp)
        have e7 := this .w .r (by simp)
        have e8 := this .b .r (by simp)
        have e9 := this .w .q (by simp)
        have e10 := this .b .q (by simp)
        omega
      · cases c
        · rw [hT] at hc2
          rw [hT] at hc3
          simp only [opposite_color] at hc3
          omega
        · rw [hT] at hc2
          rw [hT] at hc3
          simp only [opposite_color] at hc3
          omega
      · exfalso
        omega
  · -- total = 2 + bishops, both sides have a bishop: the shade scan decides
    rw [shadeScan_none]
    constructor
    · intro hsh
      refine Or.inr (Or.inr ⟨hKB2 ?_, by omega, by omega, hsh⟩)
      intro c t htk htb
      cases c <;> cases t <;>
        first | exact absurd rfl htk | exact absurd rfl htb | omega
    · intro hspec
      rcases hspec with h1 | ⟨c, hc1, hc2, hc3⟩ | ⟨hkb, hwb, hbb, hsh⟩
      · exfalso
        have := hK1 h1
        have e5 := this .w .b (by simp)
        have e6 := this .b .b (by simp)
        omega
      · exfalso
        cases c
        · rw [hT] at hc2
          rw [hT] at hc3
          simp only [opposite_color] at hc3
          omega
        · rw [hT] at hc2
          rw [hT] at hc3
          simp only [opposite_color] at hc3
          omega
      · exact hsh
  · -- total = 2 + bishops but one side has no bishop
    refine iff_of_false (by simp) ?_
    intro hspec
    rcases hspec with h1 | ⟨c, hc1, hc2, hc3⟩ | ⟨hkb, hwb, hbb, _⟩
    · have := hK1 h1
      have e5 := this .w .b (by simp)
      have e6 := this .b .b (by simp)
      have e1 := this .w .p (by simp)
      have e2 := this .b .p (by simp)
      have e3 := this .w .n (by simp)
      have e4 := this .b .n (by simp)
      have e7 := this .w .r (by simp)
      have e8 := this .b .r (by simp)
      have e9 := this .w .q (by simp)
      have e10 := this .b .q (by simp)
      omega
    · cases c
      · rw [hT] at hc2
        rw [hT] at hc3
        simp only [opposite_color] at hc3
        omega
      · rw [hT] at hc2
        rw [hT] at hc3
        simp only [opposite_color] at hc3
        omega
    · exact h5 ⟨by omega, by omega⟩
  · -- no branch applies: the spec cases are all contradictory
    refine iff_of_false (by simp) ?_
    intro hspec
    rcases hspec with h1 | ⟨c, hc1, hc2, hc3⟩ | ⟨hkb, hwb, hbb, _⟩
    · have := hK1 h1
      have e1 := this .w .p (by simp)
      have e2 := this .b .p (by simp)
      have e3 := this .w .n (by simp)
      have e4 := this .b .n (by simp)
      have e5 := this .w .b (by simp)
      have e6 := this .b .b (by simp)
      have e7 := this .w .r (by simp)
      have e8 := this .b .r (by simp)
      have e9 := this .w .q (by simp)
      have e10 := this .b .q (by simp)
      omega
    · cases c
      · rw [hT] at hc2
        rw [hT] at hc3
        simp only [opposite_color] at hc3
        omega
      · rw [hT] at hc2
        rw [hT] at hc3
        simp only [opposite_color] at hc3
        omega
    · have := hKB1 hkb
      have e1 := this .w .p (by simp) (by simp)
      have e2 := this .b .p (by simp) (by simp)
      have e3 := this .w .n (by simp) (by simp)
      have e4 := this .b .n (by simp) (by simp)
      have e7 := this .w .r (by simp) (by simp)
      have e8 := this .b .r (by simp) (by simp)
      have e9 := this .w .q (by simp) (by simp)
      have e10 := this .b .q (by simp) (by simp)
      exact h4 (by omega)

set_option maxRecDepth 40000 in
set_option maxHeartbeats 4000000 in
/-- Witness for `insufficient_material_characterization`: the
king-plus-bishop versus king position satisfies its hypotheses. -/
theorem insufficient_material_characterization_witness :
    c6Pos.is_insufficient_material = true ↔ spec_insufficient c6Pos :=
  insufficient_material_characterization c6Pos (by unfold offboardEmpty; decide) (by decide)
    (by decide)


/-! ### Helper lemmas for claim C4 (amended) -/

theorem canonical_filter (f : Char → Bool) :
    canonicalList (['K', 'Q', 'k', 'q'].filter f) := by
  unfold canonicalList
  cases hK : f 'K' <;> cases hQ : f 'Q' <;> cases hk : f 'k' <;> cases hq : f 'q' <;>
    simp [List.filter, hK, hQ, hk, hq]

theorem canonical_core (p : Position) (t : Char) (st : Bool) :
    canonicalList (p.set_castling_right_core t st) :=
  canonical_filter _

theorem canonical_step {q : Position} (t : Char) (h : canonicalList q.castling) :
    canonicalList (updateCastlingStep q t).castling := by
  unfold updateCastlingStep
  split
  · exact h
  · exact canonical_core q t false

theorem canonical_fold (ts : List Char) (q : Position) (h : canonicalList q.castling) :
    canonicalList (ts.foldl updateCastlingStep q).castling := by
  induction ts generalizing q with
  | nil => exact h
  | cons t ts ih => exact ih _ (canonical_step t h)

theorem canonical_updateCastling {p : Position} (h : canonicalList p.castling) :
    canonicalList p.updateCastling.castling :=
  canonical_fold _ _ h

theorem canonical_set {p : Position} (sq : Square) (pc : Option Piece)
    (h : canonicalList p.castling) : canonicalList (p.set sq pc).castling :=
  canonical_updateCastling h

theorem updateCastlingStep_frame (q : Position) (t : Char) :
    (updateCastlingStep q t).turn = q.turn ∧
      (updateCastlingStep q t).ep_file = q.ep_file ∧
      (updateCastlingStep q t).half_moves = q.half_moves ∧
      (updateCastlingStep q t).move_number = q.move_number := by
  unfold updateCastlingStep
  split <;> exact ⟨rfl, rfl, rfl, rfl⟩

theorem updateCastling_frame (p : Position) :
    p.updateCastling.turn = p.turn ∧ p.updateCastling.ep_file = p.ep_file ∧
      p.updateCastling.half_moves = p.half_moves ∧
      p.updateCastling.move_number = p.move_number := by
  unfold Position.updateCastling
  generalize (['K', 'Q', 'k', 'q'] : List Char) = ts
  induction ts generalizing p with
  | nil => exact ⟨rfl, rfl, rfl, rfl⟩
  | cons t ts ih =>
      rw [List.foldl_cons]
      obtain ⟨a, b, c, d⟩ := ih (updateCastlingStep p t)
      obtain ⟨a2, b2, c2, d2⟩ := updateCastlingStep_frame p t
      exact ⟨a.trans a2, b.trans b2, c.trans c2, d.trans d2⟩

theorem set_frame (p : Position) (sq : Square) (pc : Option Piece) :
    (p.set sq pc).turn = p.turn ∧ (p.set sq pc).ep_file = p.ep_file ∧
      (p.set sq pc).half_moves = p.half_moves ∧
      (p.set sq pc).move_number = p.move_number :=
  updateCastling_frame _

theorem mmPawn_fields {p2 : Position} {m : Move} {capture : Option Piece}
    {moved : Piece} {p3 : Position} {cf : Bool}
    (h : mmPawn p2 m capture moved = some (p3, cf)) :
    p3.castling = p2.castling ∧ p3.ep_file = p2.ep_file ∧
      p3.move_number = p2.move_number := by
  unfold mmPawn at h
  split at h
  · split at h
    · simp only [bind, Option.bind_eq_some] at h
      obtain ⟨b2, _, h⟩ := h
      injection h with h
      rw [Prod.mk.injEq] at h
      rw [← h.1]
      exact ⟨rfl, rfl, rfl⟩
    · injection h with h
      rw [Prod.mk.injEq] at h
      rw [← h.1]
      exact ⟨rfl, rfl, rfl⟩
  · injection h with h
    rw [Prod.mk.injEq] at h
    rw [← h.1]
    exact ⟨rfl, rfl, rfl⟩

theorem target_file_mem (m : Move) :
    m.target.get_file ∈ (['a', 'b', 'c', 'd', 'e', 'f', 'g', 'h'] : List Char) := by
  have : ∀ x : Fin 8, Char.ofNat (97 + x.val) ∈
      (['a', 'b', 'c', 'd', 'e', 'f', 'g', 'h'] : List Char) := by decide
  exact this m.target.x

theorem mmEpFile_fields (p3 : Position) (m : Move) (moved : Piece) :
    (mmEpFile p3 m moved).castling = p3.castling ∧
      epOK (mmEpFile p3 m moved) ∧
      (mmEpFile p3 m moved).move_number = p3.move_number := by
  unfold mmEpFile epOK
  split
  · split
    · exact ⟨rfl, Or.inr ⟨m.target.get_file, target_file_mem m, rfl⟩, rfl⟩
    · exact ⟨rfl, Or.inl rfl, rfl⟩
  · exact ⟨rfl, Or.inl rfl, rfl⟩

theorem mmPromotion_fields {p4 : Position} {m : Move} {p5 : Position}
    (h : mmPromotion p4 m = some p5) (hc : canonicalList p4.castling) :
    canonicalList p5.castling ∧ p5.ep_file = p4.ep_file ∧
      p5.move_number = p4.move_number := by
  unfold mmPromotion at h
  split at h
  · simp only [bind, Option.bind_eq_some] at h
    obtain ⟨cur, _, h⟩ := h
    injection h with h
    rw [← h]
    obtain ⟨_, hep, _, hmn⟩ := set_frame p4 m.target _
    exact ⟨canonical_set _ _ hc, hep, hmn⟩
  · injection h with h
    rw [← h]
    exact ⟨hc, rfl, rfl⟩

theorem mmCastleRook_fields {p5 : Position} {m : Move} {p6 : Position}
    (h : mmCastleRook p5 m = some p6) :
    p6.castling = p5.castling ∧ p6.ep_file = p5.ep_file ∧
      p6.move_number = p5.move_number := by
  unfold mmCastleRook at h
  split at h
  · exact absurd h (by simp)
  · split at h
    · split at h
      · rcases Option.bind_eq_some.mp h with ⟨v, hv, h⟩
        rcases Option.bind_eq_some.mp h with ⟨b1, hb1, h⟩
        rcases Option.bind_eq_some.mp h with ⟨b2, hb2, h⟩
        simp only [Option.pure_def] at h
        injection h with h
        rw [← h]
        exact ⟨rfl, rfl, rfl⟩
      · simp only [Option.pure_def] at h
        injection h with h
        rw [← h]
        exact ⟨rfl, rfl, rfl⟩
    · simp only [Option.pure_def] at h
      injection h with h
      rw [← h]
      exact ⟨rfl, rfl, rfl⟩

theorem mmClocks_fields {p6 : Position} {m : Move} {cf : Bool} {p7 : Position}
    (h : mmClocks p6 m cf = some p7) :
    p7.castling = p6.castling ∧ p7.ep_file = p6.ep_file ∧
      p7.move_number = p6.move_number := by
  unfold mmClocks at h
  split at h
  · exact absurd h (by simp)
  · split at h
    · injection h with h
      rw [← h]
      exact ⟨rfl, rfl, rfl⟩
    · split at h <;>
        · injection h with h
          rw [← h]
          exact ⟨rfl, rfl, rfl⟩

/-- `make_move` keeps the castling string canonical, always leaves a
valid en-passant file, and never decreases the move number. -/
theorem make_move_inv {p : Position} {m : Move} {q : Position}
    (h : p.make_move m = some q) (hc : canonicalList p.castling)
    (hm : 1 ≤ p.move_number) :
    canonicalList q.castling ∧ epOK q ∧ 1 ≤ q.move_number := by
  unfold Position.make_move at h
  simp only [bind, Option.bind_eq_some] at h
  obtain ⟨moved, _, h⟩ := h
  obtain ⟨⟨p3, cf⟩, hp3, h⟩ := h
  dsimp only at h
  obtain ⟨p5, hp5, h⟩ := h
  obtain ⟨p6, hp6, h⟩ := h
  obtain ⟨p7, hp7, h⟩ := h
  have hc2 : canonicalList ((((p.set m.target (p.get m.source)).set m.source
      none).toggle_turn).castling) :=
    canonical_set _ _ (canonical_set _ _ hc)
  have hm2 : 1 ≤ ((((p.set m.target (p.get m.source)).set m.source
      none).toggle_turn).move_number) := by
    have f1 := (set_frame p m.target (p.get m.source)).2.2.2
    have f2 := (set_frame (p.set m.target (p.get m.source)) m.source none).2.2.2
    show 1 ≤ ((p.set m.target (p.get m.source)).set m.source none).move_number
    omega
  obtain ⟨hc3, _, hm3⟩ := mmPawn_fields hp3
  obtain ⟨hc4, hep4, hm4⟩ := mmEpFile_fields p3 m moved
  obtain ⟨hc5, hep5, hm5⟩ := mmPromotion_fields hp5 (by rw [hc4, hc3]; exact hc2)
  obtain ⟨hc6, hep6, hm6⟩ := mmCastleRook_fields hp6
  obtain ⟨hc7, hep7, hm7⟩ := mmClocks_fields hp7
  injection h with h
  have hqc : q.castling = p7.castling := by rw [← h]; split <;> rfl
  have hqe : q.ep_file = p7.ep_file := by rw [← h]; split <;> rfl
  have hqm : p7.move_number ≤ q.move_number := by
    rw [← h]
    split
    · show p7.move_number ≤ p7.move_number + 1
      omega
    · omega
  refine ⟨?_, ?_, ?_⟩
  · rw [hqc, hc7, hc6]
    exact hc5
  · unfold epOK
    rw [hqe, hep7, hep6, hep5]
    exact hep4
  · omega

/-- Every position reachable by legal moves has a canonical castling
string, a valid en-passant file, and a positive move number. -/
theorem reachable_invariant {p : Position} (h : Reachable p) :
    canonicalList p.castling ∧ epOK p ∧ 1 ≤ p.move_number := by
  induction h with
  | base => exact ⟨by unfold canonicalList; decide, Or.inl (by decide), by decide⟩
  | step _ _ hmk ih => exact make_move_inv hmk ih.1 ih.2.2

/-! ### Decimal printing and parsing round-trip -/

theorem natDigitsAux_eq (fuel n : Nat) (h : n ≤ fuel) :
    natDigitsAux fuel n = Nat.digits 10 n := by
  induction fuel generalizing n with
  | zero =>
      interval_cases n
      simp [natDigitsAux]
  | succ f ih =>
      unfold natDigitsAux
      by_cases h0 : n = 0
      · subst h0
        simp
      · rw [if_neg h0, Nat.digits_def' (by omega : 1 < 10) (by omega : 0 < n)]
        congr 1
        refine ih (n / 10) ?_
        have := Nat.div_lt_self (by omega : 0 < n) (by omega : 1 < 10)
        omega

theorem digitChar_isDigit {d : Nat} (h : d < 10) : (digitChar d).isDigit = true := by
  interval_cases d <;> decide

theorem digitChar_toNat {d : Nat} (h : d < 10) : (digitChar d).toNat - 48 = d := by
  interval_cases d <;> decide

theorem foldr_digits (l : List Nat) (h : ∀ d ∈ l, d < 10) :
    l.foldr (fun x y => 10 * y + ((digitChar x).toNat - 48)) 0 = Nat.ofDigits 10 l := by
  induction l with
  | nil => rfl
  | cons d l ih =>
      rw [List.foldr_cons, ih (fun x hx => h x (List.mem_cons_of_mem d hx)),
        Nat.ofDigits_cons]
      have hd := digitChar_toNat (h d (List.mem_cons_self d l))
      omega

theorem pyIntNat_pyStrNat (n : Nat) : pyIntNat (pyStrNat n) = some n := by
  by_cases h0 : n = 0
  · subst h0
    decide
  · unfold pyStrNat pyIntNat
    rw [if_neg h0, natDigitsAux_eq n n le_rfl]
    have hlt : ∀ d ∈ Nat.digits 10 n, d < 10 := fun d hd =>
      Nat.digits_lt_base (by omega) hd
    have hne : Nat.digits 10 n ≠ [] := Nat.digits_ne_nil_iff_ne_zero.mpr h0
    rw [if_pos]
    · congr 1
      rw [List.foldl_map, List.foldl_reverse, foldr_digits _ hlt]
      exact Nat.ofDigits_digits 10 n
    · constructor
      · simp [hne]
      · rw [List.all_eq_true]
        intro c hc
        rw [List.mem_map] at hc
        obtain ⟨d, hd, rfl⟩ := hc
        exact digitChar_isDigit (hlt d (List.mem_reverse.mp hd))

theorem pyStrNat_digits (n : Nat) : ∀ c ∈ pyStrNat n, c.isDigit = true := by
  intro c hc
  unfold pyStrNat at hc
  by_cases h0 : n = 0
  · rw [if_pos h0] at hc
    rcases List.mem_singleton.mp hc with rfl
    decide
  · rw [if_neg h0, natDigitsAux_eq n n le_rfl] at hc
    rw [List.mem_map] at hc
    obtain ⟨d, hd, rfl⟩ := hc
    exact digitChar_isDigit (Nat.digits_lt_base (by omega) (List.mem_reverse.mp hd))

theorem pyStrNat_ne_nil (n : Nat) : pyStrNat n ≠ [] := by
  unfold pyStrNat
  by_cases h0 : n = 0
  · rw [if_pos h0]
    simp
  · rw [if_neg h0, natDigitsAux_eq n n le_rfl]
    simp [Nat.digits_ne_nil_iff_ne_zero.mpr h0]

theorem isDigit_ne_space_slash {c : Char} (h : c.isDigit = true) :
    c ≠ ' ' ∧ c ≠ '/' := by
  constructor <;> intro hcon <;> subst hcon <;> exact absurd h (by decide)

/-! ### Splitting is a left inverse of joining -/

theorem pySplit_cons (c : Char) (rest : PyStr) :
    pySplit (c :: rest) =
      if c = ' ' then pySplit rest
      else
        match pySplit rest with
        | [] => [[c]]
        | t :: ts =>
            if rest.head? = some ' ' ∨ rest = [] then [c] :: t :: ts
            else (c :: t) :: ts := rfl

theorem pySplit_last (t : PyStr) (hne : t ≠ []) (hsp : ' ' ∉ t) :
    pySplit t = [t] := by
  induction t with
  | nil => exact absurd rfl hne
  | cons c rest ih =>
      have hc : c ≠ ' ' := fun hcon => hsp (hcon ▸ List.mem_cons_self c rest)
      rw [pySplit_cons, if_neg hc]
      cases hrest : rest with
      | nil => rfl
      | cons d rest2 =>
          rw [← hrest,
            ih (by rw [hrest]; simp) (fun hmem => hsp (List.mem_cons_of_mem c hmem))]
          have hd : d ≠ ' ' := fun hcon =>
            hsp (hcon ▸ (hrest ▸ List.mem_cons_of_mem c (List.mem_cons_self d rest2)))
          have hcond : ¬(rest.head? = some ' ' ∨ rest = []) := by
            rw [hrest]
            rintro (hcon | hcon)
            · injection hcon with hcon
              exact hd hcon
            · cases hcon
          simp only [if_neg hcond]

theorem pySplit_token (t rest : PyStr) (hne : t ≠ []) (hsp : ' ' ∉ t) :
    pySplit (t ++ ' ' :: rest) = t :: pySplit rest := by
  induction t with
  | nil => exact absurd rfl hne
  | cons c t2 ih =>
      have hc : c ≠ ' ' := fun hcon => hsp (hcon ▸ List.mem_cons_self c t2)
      rw [List.cons_append, pySplit_cons, if_neg hc]
      cases ht2 : t2 with
      | nil =>
          have hsp2 : pySplit (([] : PyStr) ++ ' ' :: rest) = pySplit rest := by
            rw [List.nil_append, pySplit_cons, if_pos rfl]
          rw [hsp2]
          cases hr : pySplit rest with
          | nil => rfl
          | cons u us =>
              have hcond : ((([] : PyStr) ++ ' ' :: rest).head? = some ' '
                  ∨ (([] : PyStr) ++ ' ' :: rest) = []) := Or.inl rfl
              simp only [if_pos hcond]
      | cons d t3 =>
          rw [← ht2,
            ih (by rw [ht2]; simp) (fun hmem => hsp (List.mem_cons_of_mem c hmem))]
          have hd : d ≠ ' ' := fun hcon =>
            hsp (hcon ▸ (ht2 ▸ List.mem_cons_of_mem c (List.mem_cons_self d t3)))
          have hcond : ¬((t2 ++ ' ' :: rest : PyStr).head? = some ' '
              ∨ (t2 ++ ' ' :: rest : PyStr) = []) := by
            rw [ht2]
            rintro (hcon | hcon)
            · injection hcon with hcon
              exact hd hcon
            · cases hcon
          simp only [if_neg hcond]

theorem splitChar_cons (sep c : Char) (rest : PyStr) :
    splitChar sep (c :: rest) =
      if c = sep then [] :: splitChar sep rest
      else
        match splitChar sep rest with
        | [] => [[c]]
        | t :: ts => (c :: t) :: ts := rfl

theorem splitChar_single (sep : Char) (r : PyStr) (hm : sep ∉ r) :
    splitChar sep r = [r] := by
  induction r with
  | nil => rfl
  | cons c r2 ih =>
      have hc : c ≠ sep := fun hcon => hm (hcon ▸ List.mem_cons_self c r2)
      rw [splitChar_cons, if_neg hc, ih (fun hmem => hm (List.mem_cons_of_mem c hmem))]

theorem splitChar_append (sep : Char) (r rest : PyStr) (hm : sep ∉ r) :
    splitChar sep (r ++ sep :: rest) = r :: splitChar sep rest := by
  induction r with
  | nil => rw [List.nil_append, splitChar_cons, if_pos rfl]
  | cons c r2 ih =>
      have hc : c ≠ sep := fun hcon => hm (hcon ▸ List.mem_cons_self c r2)
      rw [List.cons_append, splitChar_cons, if_neg hc,
        ih (fun hmem => hm (List.mem_cons_of_mem c hmem))]

theorem intercalate_cons_cons (s : PyStr) (a b : PyStr) (l : List PyStr) :
    List.intercalate s (a :: b :: l) = a ++ s ++ List.intercalate s (b :: l) := by
  simp [List.intercalate, List.intersperse]

/-! ### Characters produced by the rank encoder -/

theorem symbol_mem (pc : Piece) :
    pc.symbol ∈ (['p', 'n', 'b', 'r', 'k', 'q', 'P', 'N', 'B', 'R', 'K', 'Q'] : List Char) := by
  obtain ⟨c, t⟩ := pc
  cases c <;> cases t <;> decide

theorem symbol_not_digit (pc : Piece) :
    pc.symbol ∉ (['1', '2', '3', '4', '5', '6', '7', '8'] : List Char) := by
  obtain ⟨c, t⟩ := pc
  cases c <;> cases t <;> decide

theorem symbol_ne_space_slash (pc : Piece) : pc.symbol ≠ ' ' ∧ pc.symbol ≠ '/' := by
  obtain ⟨c, t⟩ := pc
  cases c <;> cases t <;> exact ⟨by decide, by decide⟩

theorem from_symbol_symbol (pc : Piece) : Piece.from_symbol pc.symbol = some pc := by
  obtain ⟨c, t⟩ := pc
  cases c <;> cases t <;> decide

theorem digit18_facts {e : Nat} (h1 : 1 ≤ e) (h8 : e ≤ 8) :
    digitChar e ∈ (['1', '2', '3', '4', '5', '6', '7', '8'] : List Char) ∧
      (digitChar e).toNat - 48 = e ∧ digitChar e ≠ ' ' ∧ digitChar e ≠ '/' := by
  interval_cases e <;> exact ⟨by decide, by decide, by decide, by decide⟩

theorem encAux_ne_space_slash :
    ∀ (cells : List (Option Piece)) (e : Nat), e + cells.length ≤ 8 →
      ∀ c ∈ encAux cells e, c ≠ ' ' ∧ c ≠ '/' := by
  intro cells
  induction cells with
  | nil =>
      intro e he c hc
      unfold encAux at hc
      split at hc
      · rcases List.mem_singleton.mp hc with rfl
        have := digit18_facts (by omega : 1 ≤ e) (by omega : e ≤ 8)
        exact ⟨this.2.2.1, this.2.2.2⟩
      · cases hc
  | cons cell rest ih =>
      intro e he c hc
      cases cell with
      | none =>
          exact ih (e + 1) (by simp at he ⊢; omega) c hc
      | some pc =>
          unfold encAux at hc
          rcases List.mem_append.mp hc with hc | hc
          · split at hc
            · rcases List.mem_singleton.mp hc with rfl
              have := digit18_facts (by omega : 1 ≤ e) (by simp at he; omega : e ≤ 8)
              exact ⟨this.2.2.1, this.2.2.2⟩
            · cases hc
          · rcases List.mem_cons.mp hc with rfl | hc
            · exact symbol_ne_space_slash pc
            · exact ih 0 (by simp at he ⊢; omega) c hc

theorem encAux_ne_nil (cells : List (Option Piece)) (e : Nat)
    (h : 1 ≤ e + cells.length) : encAux cells e ≠ [] := by
  induction cells generalizing e with
  | nil =>
      unfold encAux
      rw [if_pos (by simp at h; omega)]
      simp
  | cons cell rest ih =>
      cases cell with
      | none => exact ih (e + 1) (by omega)
      | some pc =>
          unfold encAux
          intro hcon
          rcases List.append_eq_nil.mp hcon with ⟨_, h2⟩
          cases h2

/-! ### The produced rank passes the row validation -/

theorem rowScan_cons (c : Char) (rest : PyStr) (s : Nat) (prev : Bool) :
    rowScan (c :: rest) s prev =
      if c ∈ (['1', '2', '3', '4', '5', '6', '7', '8'] : List Char) then
        if prev then none else rowScan rest (s + (c.toNat - 48)) true
      else if c ∈ (['p', 'n', 'b', 'r', 'k', 'q', 'P', 'N', 'B', 'R', 'K', 'Q'] : List Char) then
        rowScan rest (s + 1) false
      else none := rfl

theorem encAux_scan (cells : List (Option Piece)) :
    ∀ (e s : Nat), e + cells.length ≤ 8 →
      ∃ pv, rowScan (encAux cells e) s false = some (s + e + cells.length, pv) := by
  induction cells with
  | nil =>
      intro e s he
      unfold encAux
      by_cases h0 : e > 0
      · rw [if_pos h0]
        obtain ⟨hmem, hval, _, _⟩ :=
          digit18_facts (by omega : 1 ≤ e) (by simp at he; omega : e ≤ 8)
        rw [rowScan_cons, if_pos hmem, if_neg (by simp), hval]
        exact ⟨true, rfl⟩
      · have he0 : e = 0 := by omega
        subst he0
        rw [if_neg h0]
        exact ⟨false, rfl⟩
  | cons cell rest ih =>
      intro e s he
      cases cell with
      | none =>
          obtain ⟨pv, hpv⟩ := ih (e + 1) s (by simp at he ⊢; omega)
          refine ⟨pv, ?_⟩
          show rowScan (encAux rest (e + 1)) s false = _
          rw [hpv]
          have heq : s + (e + 1) + rest.length = s + e + (rest.length + 1) := by omega
          rw [heq]
          rfl
      | some pc =>
          have hsy := symbol_mem pc
          have hsnd := symbol_not_digit pc
          by_cases h0 : e > 0
          · obtain ⟨pv, hpv⟩ := ih 0 (s + e + 1) (by simp at he ⊢; omega)
            refine ⟨pv, ?_⟩
            show rowScan ((if e > 0 then [digitChar e] else []) ++
              pc.symbol :: encAux rest 0) s false = _
            rw [if_pos h0]
            obtain ⟨hmem, hval, _, _⟩ :=
              digit18_facts (by omega : 1 ≤ e) (by simp at he; omega : e ≤ 8)
            rw [List.singleton_append, rowScan_cons, if_pos hmem, if_neg (by simp), hval,
              rowScan_cons, if_neg hsnd, if_pos hsy, hpv]
            have heq : s + e + 1 + 0 + rest.length = s + e + (rest.length + 1) := by omega
            rw [heq]
            rfl
          · have he0 : e = 0 := by omega
            subst he0
            obtain ⟨pv, hpv⟩ := ih 0 (s + 1) (by simp at he ⊢; omega)
            refine ⟨pv, ?_⟩
            show rowScan ((if 0 > 0 then [digitChar 0] else []) ++
              pc.symbol :: encAux rest 0) s false = _
            rw [if_neg (by omega), List.nil_append, rowScan_cons, if_neg hsnd,
              if_pos hsy, hpv]
            have heq : s + 1 + 0 + rest.length = s + 0 + (rest.length + 1) := by omega
            rw [heq]
            rfl

theorem rowOk_encAux (cells : List (Option Piece)) (h : cells.length = 8) :
    rowOk (encAux cells 0) = true := by
  obtain ⟨pv, hpv⟩ := encAux_scan cells 0 0 (by omega)
  unfold rowOk
  rw [hpv]
  simp [h]

theorem replayFen_cons (c : Char) (rest : PyStr) (i : Nat) (b : Board) :
    replayFen (c :: rest) i b =
      if c = '/' then replayFen rest (i + 8) b
      else if c ∈ (['1', '2', '3', '4', '5', '6', '7', '8'] : List Char) then
        replayFen rest (i + (c.toNat - 48)) b
      else
        match Piece.from_symbol c with
        | some pc => replayFen rest (i + 1) (writeCell b i (some pc))
        | none => replayFen rest (i + 1) b := rfl

theorem replayFen_symbol (c : Char) (pc : Piece) (rest : PyStr) (i : Nat) (b : Board)
    (h1 : c ≠ '/') (h2 : c ∉ (['1', '2', '3', '4', '5', '6', '7', '8'] : List Char))
    (h3 : Piece.from_symbol c = some pc) :
    replayFen (c :: rest) i b = replayFen rest (i + 1) (writeCell b i (some pc)) := by
  rw [replayFen_cons, if_neg h1, if_neg h2, h3]

theorem replay_append_encAux (cells : List (Option Piece)) :
    ∀ (e i : Nat) (b : Board) (tail : PyStr), e + cells.length ≤ 8 →
      replayFen (encAux cells e ++ tail) i b =
        replayFen tail (i + e + cells.length) (overlay cells (i + e) b) := by
  induction cells with
  | nil =>
      intro e i b tail he
      unfold encAux
      by_cases h0 : e > 0
      · rw [if_pos h0]
        obtain ⟨hmem, hval, _, hslash⟩ :=
          digit18_facts (by omega : 1 ≤ e) (by simp at he; omega : e ≤ 8)
        rw [List.singleton_append, replayFen_cons, if_neg hslash, if_pos hmem, hval]
        show replayFen tail (i + e) b = replayFen tail (i + e + 0) (overlay [] (i + e) b)
        rfl
      · have he0 : e = 0 := by omega
        subst he0
        rw [if_neg h0, List.nil_append]
        rfl
  | cons cell rest ih =>
      intro e i b tail he
      cases cell with
      | none =>
          show replayFen (encAux rest (e + 1) ++ tail) i b = _
          rw [ih (e + 1) i b tail (by simp at he ⊢; omega)]
          show _ = replayFen tail (i + e + (rest.length + 1)) (overlay rest (i + e + 1) b)
          have heq : i + (e + 1) + rest.length = i + e + (rest.length + 1) := by omega
          rw [heq]
          try rfl
      | some pc =>
          have hsnd := symbol_not_digit pc
          have hsym := from_symbol_symbol pc
          have hsl := (symbol_ne_space_slash pc).2
          by_cases h0 : e > 0
          · show replayFen (((if e > 0 then [digitChar e] else []) ++
              pc.symbol :: encAux rest 0) ++ tail) i b = _
            rw [if_pos h0]
            obtain ⟨hmem, hval, _, hslash⟩ :=
              digit18_facts (by omega : 1 ≤ e) (by simp at he; omega : e ≤ 8)
            rw [List.singleton_append, List.cons_append, List.cons_append,
              replayFen_cons, if_neg hslash, if_pos hmem, hval,
              replayFen_symbol pc.symbol pc _ _ _ hsl hsnd hsym,
              ih 0 (i + e + 1) (writeCell b (i + e) (some pc)) tail
                (by simp at he ⊢; omega)]
            show _ = replayFen tail (i + e + (rest.length + 1))
              (overlay rest (i + e + 1) (writeCell b (i + e) (some pc)))
            have heq : i + e + 1 + 0 + rest.length = i + e + (rest.length + 1) := by omega
            rw [heq]
            try rfl
          · have he0 : e = 0 := by omega
            subst he0
            show replayFen (((if 0 > 0 then [digitChar 0] else []) ++
              pc.symbol :: encAux rest 0) ++ tail) i b = _
            rw [if_neg (by omega), List.nil_append, List.cons_append,
              replayFen_symbol pc.symbol pc _ _ _ hsl hsnd hsym,
              ih 0 (i + 1) (writeCell b i (some pc)) tail (by simp at he ⊢; omega)]
            show _ = replayFen tail (i + 0 + (rest.length + 1))
              (overlay rest (i + 0 + 1) (writeCell b (i + 0) (some pc)))
            have heq : i + 1 + 0 + rest.length = i + 0 + (rest.length + 1) := by omega
            rw [heq]
            try rfl

theorem intercalate_single (s : PyStr) (a : PyStr) :
    List.intercalate s [a] = a := by
  simp [List.intercalate]

theorem replay_ranks (ranks : List (List (Option Piece))) :
    ranks ≠ [] → (∀ r ∈ ranks, r.length = 8) →
    ∀ (i : Nat) (b : Board),
      replayFen (List.intercalate ['/'] (ranks.map fun cells => encAux cells 0)) i b =
        overlayRanks ranks i b := by
  induction ranks with
  | nil => intro h; exact absurd rfl h
  | cons r rest ih =>
      intro _ hlen i b
      cases rest with
      | nil =>
          rw [List.map_cons, List.map_nil, intercalate_single,
            ← List.append_nil (encAux r 0),
            replay_append_encAux r 0 i b []
              (by have := hlen r (List.mem_cons_self r []); omega)]
          show overlay r (i + 0) b = overlayRanks [] (i + 16) (overlay r i b)
          rw [Nat.add_zero]
          rfl
      | cons r2 rest2 =>
          rw [List.map_cons, List.map_cons, intercalate_cons_cons, List.append_assoc,
            List.singleton_append,
            replay_append_encAux r 0 i b _
              (by have := hlen r (List.mem_cons_self r _); omega)]
          rw [hlen r (List.mem_cons_self r _)]
          rw [replayFen_cons, if_pos rfl]
          have heq : i + 0 + 8 + 8 = i + 16 := by omega
          rw [heq, Nat.add_zero]
          show replayFen (List.intercalate ['/']
            ((r2 :: rest2).map fun cells => encAux cells 0)) (i + 16) (overlay r i b) = _
          rw [ih (by simp) (fun u hu => hlen u (List.mem_cons_of_mem r hu)) (i + 16)
            (overlay r i b)]
          rfl

theorem overlay_lt (cells : List (Option Piece)) :
    ∀ (j : Nat) (b : Board) (m : Nat), m < j → overlay cells j b m = b m := by
  induction cells with
  | nil => intro j b m _; rfl
  | cons cell rest ih =>
      intro j b m hm
      cases cell with
      | none => exact ih (j + 1) b m (by omega)
      | some pc =>
          rw [show overlay (some pc :: rest) j b = overlay rest (j + 1)
            (writeCell b j (some pc)) from rfl]
          rw [ih (j + 1) _ m (by omega)]
          unfold writeCell
          rw [if_neg (by omega)]

theorem overlay_ge (cells : List (Option Piece)) :
    ∀ (j : Nat) (b : Board) (m : Nat), j + cells.length ≤ m →
      overlay cells j b m = b m := by
  induction cells with
  | nil => intro j b m _; rfl
  | cons cell rest ih =>
      intro j b m hm
      simp only [List.length_cons] at hm
      cases cell with
      | none => exact ih (j + 1) b m (by omega)
      | some pc =>
          rw [show overlay (some pc :: rest) j b = overlay rest (j + 1)
            (writeCell b j (some pc)) from rfl]
          rw [ih (j + 1) _ m (by omega)]
          unfold writeCell
          rw [if_neg (by omega)]

theorem overlay_at (cells : List (Option Piece)) :
    ∀ (j x : Nat) (b : Board), x < cells.length →
      overlay cells j b (j + x) = (cells.getD x none).elim (b (j + x)) some := by
  induction cells with
  | nil => intro j x b hx; simp at hx
  | cons cell rest ih =>
      intro j x b hx
      cases x with
      | zero =>
          cases cell with
          | none =>
              show overlay rest (j + 1) b (j + 0) = (none : Option Piece).elim (b (j + 0)) some
              rw [overlay_lt rest (j + 1) b (j + 0) (by omega)]
              rfl
          | some pc =>
              show overlay rest (j + 1) (writeCell b j (some pc)) (j + 0)
                = (some pc).elim (b (j + 0)) some
              rw [overlay_lt rest (j + 1) _ (j + 0) (by omega)]
              unfold writeCell
              rw [if_pos (by omega)]
              rfl
      | succ x2 =>
          have harith : j + (x2 + 1) = (j + 1) + x2 := by omega
          cases cell with
          | none =>
              show overlay rest (j + 1) b (j + (x2 + 1))
                = (rest.getD x2 none).elim (b (j + (x2 + 1))) some
              rw [harith, ih (j + 1) x2 b (by simp at hx; omega)]
          | some pc =>
              show overlay rest (j + 1) (writeCell b j (some pc)) (j + (x2 + 1))
                = (rest.getD x2 none).elim (b (j + (x2 + 1))) some
              rw [harith, ih (j + 1) x2 _ (by simp at hx; omega)]
              have hne : (j + 1) + x2 ≠ j := by omega
              unfold writeCell
              rw [if_neg hne]

theorem overlayRanks_lt (ranks : List (List (Option Piece))) :
    ∀ (j : Nat) (b : Board) (m : Nat), m < j → overlayRanks ranks j b m = b m := by
  induction ranks with
  | nil => intro j b m _; rfl
  | cons r rest ih =>
      intro j b m hm
      show overlayRanks rest (j + 16) (overlay r j b) m = b m
      rw [ih (j + 16) _ m (by omega), overlay_lt r j b m hm]

theorem overlayRanks_at (ranks : List (List (Option Piece))) :
    ∀ (k x j : Nat) (b : Board), k < ranks.length → x < 8 →
      (∀ r ∈ ranks, r.length = 8) →
      overlayRanks ranks j b (j + 16 * k + x) =
        ((ranks.getD k []).getD x none).elim (b (j + 16 * k + x)) some := by
  induction ranks with
  | nil => intro k x j b hk; simp at hk
  | cons r rest ih =>
      intro k x j b hk hx hlen
      cases k with
      | zero =>
          show overlayRanks rest (j + 16) (overlay r j b) (j + 16 * 0 + x) = _
          rw [overlayRanks_lt rest (j + 16) _ _ (by omega)]
          have harith : j + 16 * 0 + x = j + x := by omega
          rw [harith, overlay_at r j x b
            (by rw [hlen r (List.mem_cons_self r _)]; omega)]
          rfl
      | succ k2 =>
          show overlayRanks rest (j + 16) (overlay r j b) (j + 16 * (k2 + 1) + x) = _
          have harith : j + 16 * (k2 + 1) + x = (j + 16) + 16 * k2 + x := by omega
          rw [harith, ih k2 x (j + 16) _ (by simp at hk; omega) hx
            (fun u hu => hlen u (List.mem_cons_of_mem r hu))]
          rw [overlay_ge r j b _ (by rw [hlen r (List.mem_cons_self r _)]; omega)]
          rfl

/-! ### Reading the populated board back -/

theorem rankCells_length (b : Board) (y : Nat) : (rankCells b y).length = 8 := by
  simp [rankCells]

theorem rankCells_getD (b : Board) (y x : Nat) (hx : x < 8) :
    (rankCells b y).getD x none = b (x + 16 * (7 - y)) := by
  interval_cases x <;> rfl

theorem splitChar_intercalate (sep : Char) :
    ∀ (l : List PyStr), l ≠ [] → (∀ r ∈ l, sep ∉ r) →
      splitChar sep (List.intercalate [sep] l) = l := by
  intro l
  induction l with
  | nil => intro h; exact absurd rfl h
  | cons a rest ih =>
      intro _ hfree
      cases rest with
      | nil =>
          rw [intercalate_single, splitChar_single sep a (hfree a (List.mem_cons_self a _))]
      | cons b2 rest2 =>
          rw [intercalate_cons_cons, List.append_assoc, List.singleton_append,
            splitChar_append sep a _ (hfree a (List.mem_cons_self a _)),
            ih (by simp) (fun r hr => hfree r (List.mem_cons_of_mem a hr))]

theorem pySplit_intercalate :
    ∀ (l : List PyStr), l ≠ [] → (∀ r ∈ l, r ≠ [] ∧ ' ' ∉ r) →
      pySplit (List.intercalate [' '] l) = l := by
  intro l
  induction l with
  | nil => intro h; exact absurd rfl h
  | cons a rest ih =>
      intro _ hfacts
      cases rest with
      | nil =>
          rw [intercalate_single,
            pySplit_last a (hfacts a (List.mem_cons_self a _)).1
              (hfacts a (List.mem_cons_self a _)).2]
      | cons b2 rest2 =>
          rw [intercalate_cons_cons, List.append_assoc, List.singleton_append,
            pySplit_token a _ (hfacts a (List.mem_cons_self a _)).1
              (hfacts a (List.mem_cons_self a _)).2,
            ih (by simp) (fun r hr => hfacts r (List.mem_cons_of_mem a hr))]

theorem fenPlacement_explicit (b : Board) :
    fenPlacement b = List.intercalate ['/']
      ([rankCells b 7, rankCells b 6, rankCells b 5, rankCells b 4, rankCells b 3,
        rankCells b 2, rankCells b 1, rankCells b 0].map fun cells => encAux cells 0) := rfl

theorem fenPlacement_ne_nil (b : Board) : fenPlacement b ≠ [] := by
  rw [fenPlacement_explicit]
  rw [List.map_cons, List.map_cons, intercalate_cons_cons, List.append_assoc,
    List.singleton_append]
  intro hcon
  exact encAux_ne_nil (rankCells b 7) 0 (by rw [rankCells_length]; omega)
    (List.append_eq_nil.mp hcon).1

theorem mem_intercalate_cons (sep : Char) :
    ∀ (l : List PyStr) (c : Char), c ∈ List.intercalate [sep] l →
      c = sep ∨ ∃ r ∈ l, c ∈ r := by
  intro l
  induction l with
  | nil => intro c hc; simp [List.intercalate] at hc
  | cons a rest ih =>
      intro c hc
      cases rest with
      | nil =>
          rw [intercalate_single] at hc
          exact Or.inr ⟨a, List.mem_cons_self a _, hc⟩
      | cons b2 rest2 =>
          rw [intercalate_cons_cons, List.append_assoc, List.singleton_append] at hc
          rcases List.mem_append.mp hc with h | h
          · exact Or.inr ⟨a, List.mem_cons_self a _, h⟩
          · rcases List.mem_cons.mp h with rfl | h2
            · exact Or.inl rfl
            · rcases ih c h2 with h3 | ⟨r, hr, hcr⟩
              · exact Or.inl h3
              · exact Or.inr ⟨r, List.mem_cons_of_mem a hr, hcr⟩

theorem fenPlacement_space_free (b : Board) : ' ' ∉ fenPlacement b := by
  rw [fenPlacement_explicit]
  intro hmem
  rcases mem_intercalate_cons '/' _ ' ' hmem with h | ⟨r, hr, hcr⟩
  · exact absurd h (by decide)
  · rcases List.mem_map.mp hr with ⟨cells, hcells, rfl⟩
    have hlen : cells.length = 8 := by
      simp only [List.mem_cons, List.not_mem_nil, or_false] at hcells
      rcases hcells with rfl|rfl|rfl|rfl|rfl|rfl|rfl|rfl <;> exact rankCells_length b _
    exact (encAux_ne_space_slash cells 0 (by omega) ' ' hcr).1 rfl

theorem rankCells_congr (b1 b2 : Board) (y : Nat)
    (h : ∀ x, x < 8 → b1 (x + 16 * (7 - y)) = b2 (x + 16 * (7 - y))) :
    rankCells b1 y = rankCells b2 y := by
  unfold rankCells
  exact List.map_congr_left fun x hx => h x (List.mem_range.mp hx)

theorem fenPlacement_congr (b1 b2 : Board)
    (h : ∀ x y, x < 8 → y < 8 → b1 (x + 16 * (7 - y)) = b2 (x + 16 * (7 - y))) :
    fenPlacement b1 = fenPlacement b2 := by
  unfold fenPlacement
  have hy : ∀ y ∈ ([7, 6, 5, 4, 3, 2, 1, 0] : List Nat),
      encAux (rankCells b1 y) 0 = encAux (rankCells b2 y) 0 := by
    intro y hy
    have hy8 : y < 8 := by
      simp only [List.mem_cons, List.not_mem_nil, or_false] at hy
      rcases hy with rfl|rfl|rfl|rfl|rfl|rfl|rfl|rfl <;> omega
    rw [rankCells_congr b1 b2 y fun x hx => h x y hx hy8]
  rw [List.map_congr_left hy]

theorem replay_fenPlacement (b : Board) (x y : Nat) (hx : x < 8) (hy : y < 8) :
    replayFen (fenPlacement b) 0 (fun _ => none) (x + 16 * (7 - y)) =
      b (x + 16 * (7 - y)) := by
  have hlens : ∀ r ∈ [rankCells b 7, rankCells b 6, rankCells b 5, rankCells b 4,
      rankCells b 3, rankCells b 2, rankCells b 1, rankCells b 0], r.length = 8 := by
    intro r hr
    simp only [List.mem_cons, List.not_mem_nil, or_false] at hr
    rcases hr with rfl|rfl|rfl|rfl|rfl|rfl|rfl|rfl <;> exact rankCells_length b _
  rw [fenPlacement_explicit, replay_ranks _ (by simp) hlens 0 (fun _ => none)]
  have harith : x + 16 * (7 - y) = 0 + 16 * (7 - y) + x := by omega
  rw [harith, overlayRanks_at _ (7 - y) x 0 (fun _ => none)
    (by simp only [List.length_cons, List.length_nil]; omega) hx hlens]
  have hget : ([rankCells b 7, rankCells b 6, rankCells b 5, rankCells b 4, rankCells b 3,
      rankCells b 2, rankCells b 1, rankCells b 0].getD (7 - y) []) = rankCells b y := by
    interval_cases y <;> rfl
  rw [hget, rankCells_getD b y x hx]
  have harith2 : 0 + 16 * (7 - y) + x = x + 16 * (7 - y) := by omega
  rw [harith2]
  cases b (x + 16 * (7 - y)) <;> rfl

/-! ### The sixteen canonical castling lists -/

theorem canonical_cases (cs : List Char) (hc : canonicalList cs) :
    cs = [] ∨ cs = ['K'] ∨ cs = ['Q'] ∨ cs = ['k'] ∨ cs = ['q'] ∨
      cs = ['K', 'Q'] ∨ cs = ['K', 'k'] ∨ cs = ['K', 'q'] ∨ cs = ['Q', 'k'] ∨
      cs = ['Q', 'q'] ∨ cs = ['k', 'q'] ∨ cs = ['K', 'Q', 'k'] ∨ cs = ['K', 'Q', 'q'] ∨
      cs = ['K', 'k', 'q'] ∨ cs = ['Q', 'k', 'q'] ∨ cs = ['K', 'Q', 'k', 'q'] := by
  unfold canonicalList at hc
  by_cases hK : 'K' ∈ cs <;> by_cases hQ : 'Q' ∈ cs <;>
    by_cases hk : 'k' ∈ cs <;> by_cases hq : 'q' ∈ cs <;>
    rw [← hc] <;> simp [List.filter_cons, List.filter_nil, hK, hQ, hk, hq]

theorem castlingToken_facts (cs : List Char) (hc : canonicalList cs) :
    matchCastlingFlag (if cs = [] then ['-'] else cs) = true ∧
      (if cs = [] then ['-'] else cs) ≠ [] ∧
      ' ' ∉ (if cs = [] then ['-'] else cs) ∧
      (if (if cs = [] then ['-'] else cs) = ['-'] then []
        else (if cs = [] then ['-'] else cs)) = cs := by
  rcases canonical_cases cs hc with
    rfl|rfl|rfl|rfl|rfl|rfl|rfl|rfl|rfl|rfl|rfl|rfl|rfl|rfl|rfl|rfl <;>
    exact ⟨by decide, by decide, by decide, by decide⟩

theorem canonical_mem_KQkq {cs : List Char} (hc : canonicalList cs) {t : Char}
    (ht : t ∈ cs) : t ∈ (['K', 'Q', 'k', 'q'] : List Char) := by
  unfold canonicalList at hc
  rw [← hc] at ht
  exact (List.mem_filter.mp ht).1

/-! ### Re-deriving supported castling rights is the identity -/

theorem updateCastlingStep_id (q : Position) (t : Char)
    (hc : canonicalList q.castling)
    (hsup : t ∈ q.castling → q.get_theoretical_castling_right t = true) :
    updateCastlingStep q t = q := by
  unfold updateCastlingStep
  by_cases hth : q.get_theoretical_castling_right t = true
  · rw [if_pos hth]
  · rw [if_neg hth]
    have htn : t ∉ q.castling := fun hmem => hth (hsup hmem)
    have hcore : q.set_castling_right_core t false = q.castling := by
      unfold Position.set_castling_right_core
      have hcong : (['K', 'Q', 'k', 'q'] : List Char).filter
          (fun u => if u = t then false else q.get_castling_right u) =
          (['K', 'Q', 'k', 'q'] : List Char).filter (fun u => decide (u ∈ q.castling)) := by
        apply List.filter_congr
        intro u _
        by_cases hut : u = t
        · subst hut
          rw [if_pos rfl]
          exact (decide_eq_false htn).symm
        · rw [if_neg hut]
          rfl
      rw [hcong, hc]
    rw [hcore]

theorem updateCastling_id (q : Position) (hc : canonicalList q.castling)
    (hsup : ∀ t ∈ q.castling, q.get_theoretical_castling_right t = true) :
    q.updateCastling = q := by
  unfold Position.updateCastling
  rw [show (['K', 'Q', 'k', 'q'] : List Char).foldl updateCastlingStep q =
    updateCastlingStep (updateCastlingStep (updateCastlingStep
      (updateCastlingStep q 'K') 'Q') 'k') 'q' from rfl]
  rw [updateCastlingStep_id q 'K' hc (fun h => hsup 'K' h),
    updateCastlingStep_id q 'Q' hc (fun h => hsup 'Q' h),
    updateCastlingStep_id q 'k' hc (fun h => hsup 'k' h),
    updateCastlingStep_id q 'q' hc (fun h => hsup 'q' h)]

theorem theoretical_congr (r p : Position)
    (hb : ∀ x y, x < 8 → y < 8 → r.board (x + 16 * (7 - y)) = p.board (x + 16 * (7 - y)))
    (t : Char) (ht : t ∈ (['K', 'Q', 'k', 'q'] : List Char)) :
    r.get_theoretical_castling_right t = p.get_theoretical_castling_right t := by
  have h116 : r.board 116 = p.board 116 := hb 4 0 (by omega) (by omega)
  have h119 : r.board 119 = p.board 119 := hb 7 0 (by omega) (by omega)
  have h112 : r.board 112 = p.board 112 := hb 0 0 (by omega) (by omega)
  have h4 : r.board 4 = p.board 4 := hb 4 7 (by omega) (by omega)
  have h7 : r.board 7 = p.board 7 := hb 7 7 (by omega) (by omega)
  have h0 : r.board 0 = p.board 0 := hb 0 7 (by omega) (by omega)
  simp only [List.mem_cons, List.not_mem_nil, or_false] at ht
  rcases ht with rfl|rfl|rfl|rfl <;>
    unfold Position.get_theoretical_castling_right <;>
    rw [h116, h119, h112, h4, h7, h0]

theorem epTok_facts (p : Position) (hep : epOK p) :
    matchEpFlag p.epTok = true ∧ p.epTok ≠ [] ∧ ' ' ∉ p.epTok ∧
      (if p.epTok = ['-'] then none else p.epTok.head?) = p.ep_file := by
  rcases hep with hn | ⟨f, hf, hs⟩
  · have htok : p.epTok = ['-'] := by unfold Position.epTok; rw [hn]
    rw [htok, hn]
    exact ⟨by decide, by decide, by decide, by decide⟩
  · have htok : p.epTok = [f, if p.turn = Color.w then '6' else '3'] := by
      unfold Position.epTok; rw [hs]
    rw [htok, hs]
    fin_cases hf <;> cases hT : p.turn <;>
      exact ⟨by decide, by decide, by decide, by decide⟩

theorem turnTok_facts (t : Color) : ([t.char] : PyStr) ≠ [] ∧ ' ' ∉ ([t.char] : PyStr) := by
  cases t <;> exact ⟨by decide, by decide⟩

theorem pyStrNat_space_free (n : Nat) : ' ' ∉ pyStrNat n := by
  intro hmem
  exact (isDigit_ne_space_slash (pyStrNat_digits n ' ' hmem)).1 rfl

theorem splitChar_fenPlacement (b : Board) :
    splitChar '/' (fenPlacement b) =
      [encAux (rankCells b 7) 0, encAux (rankCells b 6) 0, encAux (rankCells b 5) 0,
       encAux (rankCells b 4) 0, encAux (rankCells b 3) 0, encAux (rankCells b 2) 0,
       encAux (rankCells b 1) 0, encAux (rankCells b 0) 0] := by
  rw [fenPlacement_explicit]
  have hfree : ∀ r ∈ ([rankCells b 7, rankCells b 6, rankCells b 5, rankCells b 4,
      rankCells b 3, rankCells b 2, rankCells b 1,
      rankCells b 0].map fun cells => encAux cells 0), '/' ∉ r := by
    intro r hr
    rcases List.mem_map.mp hr with ⟨cells, hcells, rfl⟩
    intro hmem
    have hlen : cells.length = 8 := by
      simp only [List.mem_cons, List.not_mem_nil, or_false] at hcells
      rcases hcells with rfl|rfl|rfl|rfl|rfl|rfl|rfl|rfl <;> exact rankCells_length b _
    exact (encAux_ne_space_slash cells 0 (by omega) '/' hmem).2 rfl
  exact splitChar_intercalate '/' _ (by simp) hfree

theorem rows_all_ok (b : Board) :
    ([encAux (rankCells b 7) 0, encAux (rankCells b 6) 0, encAux (rankCells b 5) 0,
      encAux (rankCells b 4) 0, encAux (rankCells b 3) 0, encAux (rankCells b 2) 0,
      encAux (rankCells b 1) 0, encAux (rankCells b 0) 0].all rowOk) = true := by
  have h7 := rowOk_encAux (rankCells b 7) (rankCells_length b 7)
  have h6 := rowOk_encAux (rankCells b 6) (rankCells_length b 6)
  have h5 := rowOk_encAux (rankCells b 5) (rankCells_length b 5)
  have h4 := rowOk_encAux (rankCells b 4) (rankCells_length b 4)
  have h3 := rowOk_encAux (rankCells b 3) (rankCells_length b 3)
  have h2 := rowOk_encAux (rankCells b 2) (rankCells_length b 2)
  have h1 := rowOk_encAux (rankCells b 1) (rankCells_length b 1)
  have h0 := rowOk_encAux (rankCells b 0) (rankCells_length b 0)
  simp only [List.all_cons, List.all_nil, h7, h6, h5, h4, h3, h2, h1, h0,
    Bool.true_and, Bool.and_true, Bool.and_self]

theorem optBind_some {α β : Type} (a : α) (f : α → Option β) :
    Option.bind (some a) f = f a := rfl

theorem parseTurn_char (t : Color) : parseTurn [t.char] = some t := by
  cases t <;> rfl

theorem set_fenRaw_get_fen (p : Position) (hc : canonicalList p.castling) (hep : epOK p)
    (hmn : 1 ≤ p.move_number) :
    set_fenRaw p.get_fen = some
      ({ board := replayFen (fenPlacement p.board) 0 (fun _ => none), turn := p.turn, castling := p.castling, ep_file := p.ep_file, half_moves := p.half_moves, move_number := p.move_number } : Position) := by
  obtain ⟨hmc, hcne, hcsp, hcback⟩ := castlingToken_facts p.castling hc
  obtain ⟨hme, hene, hesp, heback⟩ := epTok_facts p hep
  have hfix : p.get_fen = List.intercalate [' ']
      [fenPlacement p.board, [p.turn.char],
       (if p.castling = [] then ['-'] else p.castling), p.epTok,
       pyStrNat p.half_moves, pyStrNat p.move_number] := rfl
  have hsplit : pySplit (List.intercalate [' ']
      [fenPlacement p.board, [p.turn.char],
       (if p.castling = [] then ['-'] else p.castling), p.epTok,
       pyStrNat p.half_moves, pyStrNat p.move_number]) =
      [fenPlacement p.board, [p.turn.char],
       (if p.castling = [] then ['-'] else p.castling), p.epTok,
       pyStrNat p.half_moves, pyStrNat p.move_number] := by
    apply pySplit_intercalate
    · simp
    · intro r hr
      simp only [List.mem_cons, List.not_mem_nil, or_false] at hr
      rcases hr with rfl|rfl|rfl|rfl|rfl|rfl
      · exact ⟨fenPlacement_ne_nil p.board, fenPlacement_space_free p.board⟩
      · exact turnTok_facts p.turn
      · exact ⟨hcne, hcsp⟩
      · exact ⟨hene, hesp⟩
      · exact ⟨pyStrNat_ne_nil p.half_moves, pyStrNat_space_free p.half_moves⟩
      · exact ⟨pyStrNat_ne_nil p.move_number, pyStrNat_space_free p.move_number⟩
  rw [hfix]
  unfold set_fenRaw
  rw [hsplit]
  show (if (splitChar '/' (fenPlacement p.board)).length = 8 ∧
        (splitChar '/' (fenPlacement p.board)).all rowOk then
      (parseTurn [p.turn.char]).bind fun turn =>
      if matchCastlingFlag (if p.castling = [] then ['-'] else p.castling) ∧
          matchEpFlag p.epTok then
        (pyIntNat (pyStrNat p.half_moves)).bind fun half =>
        (pyIntNat (pyStrNat p.move_number)).bind fun mn =>
        if 1 ≤ mn then
          some
            ({ board := replayFen (fenPlacement p.board) 0 (fun _ => none), turn := turn, castling := if (if p.castling = [] then ['-'] else p.castling) = ['-'] then [] else (if p.castling = [] then ['-'] else p.castling), ep_file := if p.epTok = ['-'] then none else p.epTok.head?, half_moves := half, move_number := mn } : Position)
        else none
      else none
    else none) = some
      ({ board := replayFen (fenPlacement p.board) 0 (fun _ => none), turn := p.turn, castling := p.castling, ep_file := p.ep_file, half_moves := p.half_moves, move_number := p.move_number } : Position)
  have hcond : (splitChar '/' (fenPlacement p.board)).length = 8 ∧
      (splitChar '/' (fenPlacement p.board)).all rowOk = true := by
    rw [splitChar_fenPlacement]
    exact ⟨rfl, rows_all_ok p.board⟩
  rw [if_pos hcond, parseTurn_char p.turn, optBind_some]
  show (if matchCastlingFlag (if p.castling = [] then ['-'] else p.castling) ∧
          matchEpFlag p.epTok then
        (pyIntNat (pyStrNat p.half_moves)).bind fun half =>
        (pyIntNat (pyStrNat p.move_number)).bind fun mn =>
        if 1 ≤ mn then
          some
            ({ board := replayFen (fenPlacement p.board) 0 (fun _ => none), turn := p.turn, castling := if (if p.castling = [] then ['-'] else p.castling) = ['-'] then [] else (if p.castling = [] then ['-'] else p.castling), ep_file := if p.epTok = ['-'] then none else p.epTok.head?, half_moves := half, move_number := mn } : Position)
        else none
      else none) = some
      ({ board := replayFen (fenPlacement p.board) 0 (fun _ => none), turn := p.turn, castling := p.castling, ep_file := p.ep_file, half_moves := p.half_moves, move_number := p.move_number } : Position)
  rw [if_pos ⟨hmc, hme⟩, pyIntNat_pyStrNat p.half_moves, optBind_some]
  show ((pyIntNat (pyStrNat p.move_number)).bind fun mn =>
        if 1 ≤ mn then
          some
            ({ board := replayFen (fenPlacement p.board) 0 (fun _ => none), turn := p.turn, castling := if (if p.castling = [] then ['-'] else p.castling) = ['-'] then [] else (if p.castling = [] then ['-'] else p.castling), ep_file := if p.epTok = ['-'] then none else p.epTok.head?, half_moves := p.half_moves, move_number := mn } : Position)
        else none) = some
      ({ board := replayFen (fenPlacement p.board) 0 (fun _ => none), turn := p.turn, castling := p.castling, ep_file := p.ep_file, half_moves := p.half_moves, move_number := p.move_number } : Position)
  rw [pyIntNat_pyStrNat p.move_number, optBind_some]
  show (if 1 ≤ p.move_number then
        some
          ({ board := replayFen (fenPlacement p.board) 0 (fun _ => none), turn := p.turn, castling := if (if p.castling = [] then ['-'] else p.castling) = ['-'] then [] else (if p.castling = [] then ['-'] else p.castling), ep_file := if p.epTok = ['-'] then none else p.epTok.head?, half_moves := p.half_moves, move_number := p.move_number } : Position)
        else none) = some
      ({ board := replayFen (fenPlacement p.board) 0 (fun _ => none), turn := p.turn, castling := p.castling, ep_file := p.ep_file, half_moves := p.half_moves, move_number := p.move_number } : Position)
  rw [if_pos hmn, hcback, heback]

/-! ### The FEN round trip under supported castling rights -/

theorem set_fen_get_fen (p : Position) (hc : canonicalList p.castling) (hep : epOK p)
    (hmn : 1 ≤ p.move_number)
    (hsup : ∀ t ∈ p.castling, p.get_theoretical_castling_right t = true) :
    ∃ q, set_fen p.get_fen = some q ∧ q.get_fen = p.get_fen := by
  have hraw := set_fenRaw_get_fen p hc hep hmn
  set r : Position := ({ board := replayFen (fenPlacement p.board) 0 (fun _ => none), turn := p.turn, castling := p.castling, ep_file := p.ep_file, half_moves := p.half_moves, move_number := p.move_number } : Position) with hrdef
  have hb : ∀ x y, x < 8 → y < 8 →
      r.board (x + 16 * (7 - y)) = p.board (x + 16 * (7 - y)) :=
    fun x y hx hy => replay_fenPlacement p.board x y hx hy
  have hsup2 : ∀ t ∈ r.castling, r.get_theoretical_castling_right t = true := by
    intro t ht
    rw [theoretical_congr r p hb t (canonical_mem_KQkq hc ht)]
    exact hsup t ht
  have hid : r.updateCastling = r := updateCastling_id r hc hsup2
  refine ⟨r, ?_, ?_⟩
  · unfold set_fen
    rw [hraw]
    show some r.updateCastling = some r
    rw [hid]
  · have hfp : fenPlacement r.board = fenPlacement p.board := fenPlacement_congr _ _ hb
    show List.intercalate [' ']
      [fenPlacement r.board, [r.turn.char],
       (if r.castling = [] then ['-'] else r.castling), r.epTok,
       pyStrNat r.half_moves, pyStrNat r.move_number] = p.get_fen
    rw [hfp]
    rfl

set_option maxRecDepth 40000
set_option maxHeartbeats 16000000

/-- C4 (amended): for every position reachable from the `reset()` starting
position by legal moves applied with `make_move`, provided every castling
right still held is theoretically supported by the board (king and rook on
their home squares), `set_fen` accepts the `get_fen` output and serializing
the resulting position again yields the identical FEN string. -/
theorem fen_round_trip_holds_for_supported_rights (p : Position)
    (h : Reachable p)
    (hsup : ∀ t ∈ p.castling, p.get_theoretical_castling_right t = true) :
    ∃ q, set_fen p.get_fen = some q ∧ q.get_fen = p.get_fen := by
  obtain ⟨hc, hep, hmn⟩ := reachable_invariant h
  exact set_fen_get_fen p hc hep hmn hsup

theorem fen_round_trip_holds_for_supported_rights_witness :
    (∀ t ∈ startPos.castling, startPos.get_theoretical_castling_right t = true) ∧
      ∃ q, set_fen startPos.get_fen = some q ∧ q.get_fen = startPos.get_fen :=
  ⟨by decide, fen_round_trip_holds_for_supported_rights startPos Reachable.base (by decide)⟩

/-! ### Kingless positions (claim C9) -/

/-- C9: when the given color has no king anywhere on the board,
`is_king_attacked` returns `false` rather than failing; consequently
`is_check` and `is_checkmate` are `false` whenever the side to move has no
king, even on such an invalid position. -/
theorem kingless_is_king_attacked_false (p : Position) (c : Color)
    (h : ∀ sq : Square, p.get sq ≠ some ⟨c, PieceType.k⟩) :
    p.is_king_attacked c = false ∧
      (c = p.get_turn → p.is_check = false ∧ p.is_checkmate = false) := by
  have hgk : p.get_king c = none := by
    unfold Position.get_king
    rw [List.find?_eq_none]
    intro sq _
    cases hg : p.get sq with
    | none => simp
    | some pc =>
        intro hcon
        have hcon2 : decide (pc.color = c ∧ pc.ptype = PieceType.k) = true := hcon
        obtain ⟨h1, h2⟩ := of_decide_eq_true hcon2
        apply h sq
        rw [hg]
        cases pc
        simp only at h1 h2
        rw [h1, h2]
  have hka : p.is_king_attacked c = false := by
    unfold Position.is_king_attacked
    rw [hgk]
  refine ⟨hka, fun hT => ?_⟩
  have hchk : p.is_check = false := by
    unfold Position.is_check
    rw [← hT]
    exact hka
  refine ⟨hchk, ?_⟩
  unfold Position.is_checkmate
  rw [hchk]
  simp

theorem kingless_is_king_attacked_false_witness :
    (∀ sq : Square, emptyPosition.get sq ≠ some ⟨Color.w, PieceType.k⟩) ∧
      emptyPosition.is_king_attacked Color.w = false ∧
      (Color.w = emptyPosition.get_turn → emptyPosition.is_check = false ∧
        emptyPosition.is_checkmate = false) :=
  ⟨fun _ hcon => Option.noConfusion hcon,
   kingless_is_king_attacked_false emptyPosition Color.w
     (fun _ hcon => Option.noConfusion hcon)⟩

end LibChess
